import Mathlib

/-!
Verification of the GEOframePy drainage-network topology engine
(`geoframepy/topology/network.py`) against its specification.

The embedding models Python/networkx values directly:
* a node identifier is either a Python `int` or a Python `str` (`PyNode`);
* a `networkx.DiGraph` is a pair of insertion-ordered, duplicate-free lists
  of nodes and directed edges (`Graph`); `add_edge` inserts missing endpoints
  and collapses duplicate edges, exactly as networkx does;
* file contents are lists of text lines; fallible code returns `Except`.

Library calls (`nx.topological_sort`, `nx.is_weakly_connected`,
`nx.bfs_tree`, …) are modelled by executable functions realizing their
documented contracts, and the contracts themselves are proved below
(topological order / permutation / failure-iff-cycle, connectivity closure).
-/

namespace GeoFrame

instance {ε α : Type} [DecidableEq ε] [DecidableEq α] :
    DecidableEq (Except ε α) := fun x y =>
  match x, y with
  | .error a, .error b =>
    if h : a = b then isTrue (by rw [h])
    else isFalse (by intro hc; cases hc; exact h rfl)
  | .error _, .ok _ => isFalse (by intro h; cases h)
  | .ok _, .error _ => isFalse (by intro h; cases h)
  | .ok a, .ok b =>
    if h : a = b then isTrue (by rw [h])
    else isFalse (by intro hc; cases hc; exact h rfl)

/-- A Python node identifier: the topology code mixes `int` node ids (from the
examples and callers) with the sentinel string `"0"`; Python treats an int and
a string as distinct dictionary/graph keys, and so does this type. -/
inductive PyNode where
  | int : Int → PyNode
  | str : String → PyNode
deriving DecidableEq, Repr

/-- A directed edge `u → v` (sub-basin `u` drains into `v`). -/
abbrev Edge := PyNode × PyNode

/-- Model of a `networkx.DiGraph`: insertion-ordered node list and edge list.
Well-formed graphs (all graphs networkx actually builds) have duplicate-free
node and edge lists with edge endpoints registered as nodes; see `Graph.WF`. -/
structure Graph where
  nodes : List PyNode
  edges : List Edge
deriving DecidableEq, Repr

/-- The empty `nx.DiGraph()`. -/
def Graph.empty : Graph := ⟨[], []⟩

/-- Model of `G.add_node(n)`: appends the node if it is not present. -/
def Graph.addNode (g : Graph) (n : PyNode) : Graph :=
  if n ∈ g.nodes then g else { g with nodes := g.nodes ++ [n] }

/-- Model of `G.add_edge(u, v)`: registers both endpoints, then appends the
edge unless it is already present (networkx collapses duplicate edges). -/
def Graph.addEdge (g : Graph) (u v : PyNode) : Graph :=
  if (u, v) ∈ ((g.addNode u).addNode v).edges then (g.addNode u).addNode v
  else { (g.addNode u).addNode v with
         edges := ((g.addNode u).addNode v).edges ++ [(u, v)] }

/-- Model of `G.add_edges_from(es)`. -/
def Graph.addEdgesFrom (g : Graph) (es : List Edge) : Graph :=
  es.foldl (fun h e => h.addEdge e.1 e.2) g

/-- Successor list of a node (networkx `G.neighbors`/`G.successors`), in edge
insertion order. -/
def Graph.successors (g : Graph) (n : PyNode) : List PyNode :=
  (g.edges.filter (fun e => e.1 = n)).map Prod.snd

/-- Predecessor list of a node (networkx `G.predecessors`), in edge insertion
order. -/
def Graph.predecessors (g : Graph) (n : PyNode) : List PyNode :=
  (g.edges.filter (fun e => e.2 = n)).map Prod.fst

/-- Well-formedness invariant of every graph networkx builds: node and edge
lists are duplicate-free and every edge endpoint is a registered node. -/
def Graph.WF (g : Graph) : Prop :=
  g.nodes.Nodup ∧ g.edges.Nodup ∧ ∀ e ∈ g.edges, e.1 ∈ g.nodes ∧ e.2 ∈ g.nodes

instance (g : Graph) : Decidable g.WF := by
  unfold Graph.WF; infer_instance

/-! ### Topology file parsing (`get_raw_network`, lines 32-48) -/

/-- Worker for `tokenize`: scan the characters, accumulating the current
token (reversed) and emitting it at each whitespace run or at the end. -/
def tokenizeAux : List Char → List Char → List String
  | [], acc => if acc.isEmpty then [] else [String.mk acc.reverse]
  | c :: cs, acc =>
    if c.isWhitespace then
      if acc.isEmpty then tokenizeAux cs []
      else String.mk acc.reverse :: tokenizeAux cs []
    else tokenizeAux cs (c :: acc)

/-- Python `line.split()` with no separator argument: split on runs of
whitespace, producing no empty tokens. -/
def tokenize (line : String) : List String := tokenizeAux line.data []

/-- Model of `get_raw_network` (network.py lines 32-48): for each line take
`p = line.split()` and record the edge `(p[0], p[1])`; a line with fewer than
two tokens raises `IndexError`.  The graph is only constructed (from the
accumulated edge list) after every line has parsed, so a failure yields no
partial graph. -/
def parseTopologyLine (line : String) : Except String Edge :=
  match tokenize line with
  | a :: b :: _ => Except.ok (PyNode.str a, PyNode.str b)
  | _ => Except.error "IndexError: list index out of range"

def get_raw_network (lines : List String) : Except String Graph := do
  let edges ← lines.mapM parseTopologyLine
  return Graph.empty.addEdgesFrom edges

/-! ### Topological sort (model of `nx.topological_sort`)

`nx.topological_sort` yields the graph's nodes in some order in which every
edge goes forward, and raises `NetworkXUnfeasible` exactly when the graph has
a directed cycle.  The model below repeatedly extracts a node with no
incoming edge from the remaining nodes; its contract (permutation, edge
order, failure iff cycle) is proved and is all later proofs rely on. -/

/-- Does `v` have an incoming edge from some node of `rem`? -/
def hasIncomingFrom (edges : List Edge) (rem : List PyNode) (v : PyNode) : Bool :=
  rem.any (fun u => decide ((u, v) ∈ edges))

/-- Fuel-indexed worker for topological sorting: extract a node of `rem` with
no incoming edge from `rem`, recurse on the rest; `none` when stuck. -/
def topoAux (edges : List Edge) : Nat → List PyNode → Option (List PyNode)
  | 0, rem => if rem.isEmpty then some [] else none
  | fuel + 1, rem =>
    match rem with
    | [] => some []
    | _ :: _ =>
      match rem.find? (fun v => ! hasIncomingFrom edges rem v) with
      | none => none
      | some v => (topoAux edges fuel (rem.erase v)).map (v :: ·)

/-- Model of `list(nx.topological_sort(G))`; `none` models
`NetworkXUnfeasible`. -/
def topologicalSort (g : Graph) : Option (List PyNode) :=
  topoAux g.edges g.nodes.length g.nodes

/-- A nonempty directed path through a given edge list. -/
inductive EPath (E : List Edge) : PyNode → PyNode → Prop where
  | single {u v : PyNode} : (u, v) ∈ E → EPath E u v
  | cons {u w v : PyNode} : (u, w) ∈ E → EPath E w v → EPath E u v

/-- A graph is acyclic when no node lies on a nonempty directed cycle. -/
def Graph.Acyclic (g : Graph) : Prop := ∀ v, ¬ EPath g.edges v v

theorem EPath.trans {E : List Edge} {u v w : PyNode}
    (h1 : EPath E u v) (h2 : EPath E v w) : EPath E u w := by
  induction h1 with
  | single he => exact EPath.cons he h2
  | cons he _ ih => exact EPath.cons he (ih h2)

theorem topoAux_zero_inv {edges : List Edge} {rem ord : List PyNode}
    (h : topoAux edges 0 rem = some ord) : rem = [] ∧ ord = [] := by
  simp only [topoAux] at h
  split at h
  · exact ⟨List.isEmpty_iff.mp (by assumption), by cases h; rfl⟩
  · exact absurd h (by simp)

theorem topoAux_succ_inv {edges : List Edge} {n : Nat} {rem ord : List PyNode}
    (h : topoAux edges (n + 1) rem = some ord) :
    (rem = [] ∧ ord = []) ∨
    ∃ v ord', rem.find? (fun v => ! hasIncomingFrom edges rem v) = some v ∧
      topoAux edges n (rem.erase v) = some ord' ∧ ord = v :: ord' := by
  cases rem with
  | nil =>
    simp only [topoAux] at h
    cases h
    exact Or.inl ⟨rfl, rfl⟩
  | cons r rs =>
    simp only [topoAux] at h
    cases hf : (r :: rs).find? (fun v => ! hasIncomingFrom edges (r :: rs) v) with
    | none => rw [hf] at h; cases h
    | some v =>
      rw [hf] at h
      simp only [Option.map_eq_some'] at h
      obtain ⟨ord', hrec, heq⟩ := h
      exact Or.inr ⟨v, ord', rfl, hrec, heq.symm⟩

theorem topoAux_find_prop {edges : List Edge} {rem : List PyNode} {v : PyNode}
    (hf : rem.find? (fun v => ! hasIncomingFrom edges rem v) = some v) :
    v ∈ rem ∧ ∀ u ∈ rem, (u, v) ∉ edges := by
  refine ⟨List.mem_of_find?_eq_some hf, ?_⟩
  intro u hu
  have hpred := List.find?_some hf
  simp only [Bool.not_eq_true', hasIncomingFrom] at hpred
  have := List.any_eq_false.mp hpred u hu
  simpa using this

theorem topoAux_perm {edges : List Edge} :
    ∀ {fuel : Nat} {rem ord : List PyNode},
      topoAux edges fuel rem = some ord → ord.Perm rem := by
  intro fuel
  induction fuel with
  | zero =>
    intro rem ord h
    obtain ⟨h1, h2⟩ := topoAux_zero_inv h
    subst h1; subst h2; exact List.Perm.refl _
  | succ n ih =>
    intro rem ord h
    rcases topoAux_succ_inv h with ⟨h1, h2⟩ | ⟨v, ord', hf, hrec, rfl⟩
    · subst h1; subst h2; exact List.Perm.refl _
    · have hv : v ∈ rem := (topoAux_find_prop hf).1
      exact ((ih hrec).cons v).trans (List.perm_cons_erase hv).symm

theorem topoAux_pairwise {edges : List Edge} :
    ∀ {fuel : Nat} {rem ord : List PyNode},
      topoAux edges fuel rem = some ord →
      ord.Pairwise (fun a b => (b, a) ∉ edges) := by
  intro fuel
  induction fuel with
  | zero =>
    intro rem ord h
    rw [(topoAux_zero_inv h).2]
    exact List.Pairwise.nil
  | succ n ih =>
    intro rem ord h
    rcases topoAux_succ_inv h with ⟨h1, h2⟩ | ⟨v, ord', hf, hrec, rfl⟩
    · subst h2; exact List.Pairwise.nil
    · refine List.Pairwise.cons ?_ (ih hrec)
      intro b hb
      have hbrem : b ∈ rem :=
        List.erase_subset _ _ ((topoAux_perm hrec).mem_iff.mp hb)
      exact (topoAux_find_prop hf).2 b hbrem

theorem topoAux_no_self {edges : List Edge} :
    ∀ {fuel : Nat} {rem ord : List PyNode},
      topoAux edges fuel rem = some ord → ∀ v ∈ ord, (v, v) ∉ edges := by
  intro fuel
  induction fuel with
  | zero =>
    intro rem ord h
    rw [(topoAux_zero_inv h).2]
    intro v hv; cases hv
  | succ n ih =>
    intro rem ord h
    rcases topoAux_succ_inv h with ⟨h1, h2⟩ | ⟨v, ord', hf, hrec, rfl⟩
    · subst h2; intro v hv; cases hv
    · intro w hw
      cases hw with
      | head => exact (topoAux_find_prop hf).2 v (topoAux_find_prop hf).1
      | tail _ hw' => exact ih hrec w hw'

theorem topo_edge_order {g : Graph} {ord : List PyNode}
    (h : topologicalSort g = some ord) {u v : PyNode}
    (he : (u, v) ∈ g.edges) (hu : u ∈ ord) (hv : v ∈ ord) :
    ord.indexOf u < ord.indexOf v := by
  have hiu : ord.indexOf u < ord.length := List.indexOf_lt_length.mpr hu
  have hiv : ord.indexOf v < ord.length := List.indexOf_lt_length.mpr hv
  have hgu : ord[ord.indexOf u] = u := List.getElem_indexOf hiu
  have hgv : ord[ord.indexOf v] = v := List.getElem_indexOf hiv
  rcases Nat.lt_trichotomy (ord.indexOf u) (ord.indexOf v) with hlt | heq | hgt
  · exact hlt
  · exfalso
    have huv : u = v := (List.indexOf_inj hu hv).mp heq
    subst huv
    exact topoAux_no_self h u hu he
  · exfalso
    have hpw := topoAux_pairwise h
    have hclose := (List.pairwise_iff_getElem.mp hpw) _ _ hiv hiu hgt
    rw [hgv, hgu] at hclose
    exact hclose he

theorem topo_path_order {g : Graph} {ord : List PyNode}
    (hWF : ∀ e ∈ g.edges, e.1 ∈ g.nodes ∧ e.2 ∈ g.nodes)
    (h : topologicalSort g = some ord) {u v : PyNode}
    (hp : EPath g.edges u v) : ord.indexOf u < ord.indexOf v := by
  have hperm : ord.Perm g.nodes := topoAux_perm h
  induction hp with
  | single he =>
      exact topo_edge_order h he (hperm.mem_iff.mpr (hWF _ he).1)
        (hperm.mem_iff.mpr (hWF _ he).2)
  | cons he _ ih =>
      exact Nat.lt_trans
        (topo_edge_order h he (hperm.mem_iff.mpr (hWF _ he).1)
          (hperm.mem_iff.mpr (hWF _ he).2)) ih

theorem topologicalSort_some_acyclic {g : Graph} {ord : List PyNode}
    (hWF : ∀ e ∈ g.edges, e.1 ∈ g.nodes ∧ e.2 ∈ g.nodes)
    (h : topologicalSort g = some ord) : g.Acyclic := by
  intro v hv
  exact Nat.lt_irrefl _ (topo_path_order hWF h hv)

/-- Predecessor choice used in the cycle construction: some node of `rem`
with an edge into `v` (if one exists, else `v` itself). -/
def pickPred (edges : List Edge) (rem : List PyNode) (v : PyNode) : PyNode :=
  (rem.find? (fun u => decide ((u, v) ∈ edges))).getD v

/-- Walk backwards along incoming edges, starting from the head of `rem`. -/
def chainBack (edges : List Edge) (rem : List PyNode) : Nat → PyNode
  | 0 => rem.headD (PyNode.str "")
  | n + 1 => pickPred edges rem (chainBack edges rem n)

theorem pickPred_spec {edges : List Edge} {rem : List PyNode} {v : PyNode}
    (h : ∃ u ∈ rem, (u, v) ∈ edges) :
    pickPred edges rem v ∈ rem ∧ (pickPred edges rem v, v) ∈ edges := by
  unfold pickPred
  cases hfind : rem.find? (fun u => decide ((u, v) ∈ edges)) with
  | none =>
    exfalso
    obtain ⟨u, hu, he⟩ := h
    have := List.find?_eq_none.mp hfind u hu
    simp at this
    exact this he
  | some u =>
    constructor
    · simpa using List.mem_of_find?_eq_some hfind
    · have := List.find?_some hfind
      simpa using this

theorem chainBack_mem {edges : List Edge} {rem : List PyNode}
    (hne : rem ≠ [])
    (hall : ∀ v ∈ rem, ∃ u ∈ rem, (u, v) ∈ edges) :
    ∀ n, chainBack edges rem n ∈ rem := by
  intro n
  induction n with
  | zero =>
    cases rem with
    | nil => exact absurd rfl hne
    | cons r rs => simp [chainBack]
  | succ n ih =>
    exact (pickPred_spec (hall _ ih)).1

theorem chainBack_edge {edges : List Edge} {rem : List PyNode}
    (hne : rem ≠ [])
    (hall : ∀ v ∈ rem, ∃ u ∈ rem, (u, v) ∈ edges) :
    ∀ n, (chainBack edges rem (n + 1), chainBack edges rem n) ∈ edges := by
  intro n
  exact (pickPred_spec (hall _ (chainBack_mem hne hall n))).2

theorem chainBack_path {edges : List Edge} {rem : List PyNode}
    (hne : rem ≠ [])
    (hall : ∀ v ∈ rem, ∃ u ∈ rem, (u, v) ∈ edges) :
    ∀ d n, EPath edges (chainBack edges rem (n + d + 1)) (chainBack edges rem n) := by
  intro d
  induction d with
  | zero => intro n; exact EPath.single (chainBack_edge hne hall n)
  | succ d ih =>
    intro n
    have harith : n + (d + 1) + 1 = (n + d + 1) + 1 := by omega
    rw [harith]
    exact EPath.cons (chainBack_edge hne hall (n + d + 1)) (ih n)

theorem cycle_of_all_incoming {edges : List Edge} {rem : List PyNode}
    (hne : rem ≠ [])
    (hall : ∀ v ∈ rem, ∃ u ∈ rem, (u, v) ∈ edges) :
    ∃ v, EPath edges v v := by
  classical
  set L := (List.range (rem.length + 1)).map (chainBack edges rem) with hL
  have hlen : L.length = rem.length + 1 := by simp [hL]
  have hnotnodup : ¬ L.Nodup := by
    intro hnd
    have hcard : L.toFinset.card = L.length := by
      rw [List.card_toFinset, List.Nodup.dedup hnd]
    have hsub : L.toFinset ⊆ rem.toFinset := by
      intro x hx
      rw [List.mem_toFinset] at hx ⊢
      rw [hL] at hx
      simp only [List.mem_map, List.mem_range] at hx
      obtain ⟨n, _, rfl⟩ := hx
      exact chainBack_mem hne hall n
    have hle1 := Finset.card_le_card hsub
    have hle2 := List.toFinset_card_le rem
    omega
  rw [List.nodup_iff_injective_get, Function.not_injective_iff] at hnotnodup
  obtain ⟨i, j, hgeq, hij⟩ := hnotnodup
  have hget : ∀ (k : Fin L.length), L.get k = chainBack edges rem k.val := by
    intro k
    have hk : k.val < (List.range (rem.length + 1)).length := by
      simpa [hL] using k.isLt
    simp only [hL, List.get_eq_getElem, List.getElem_map, List.getElem_range]
  rw [hget i, hget j] at hgeq
  have hvalne : i.val ≠ j.val := fun hv => hij (Fin.ext hv)
  rcases Nat.lt_or_ge i.val j.val with hlt | hge
  · refine ⟨chainBack edges rem j.val, ?_⟩
    have hb : j.val = i.val + (j.val - i.val - 1) + 1 := by omega
    have hpath := chainBack_path hne hall (j.val - i.val - 1) i.val
    rw [← hb] at hpath
    rw [hgeq] at hpath
    exact hpath
  · have hlt : j.val < i.val := Nat.lt_of_le_of_ne hge (Ne.symm hvalne)
    refine ⟨chainBack edges rem j.val, ?_⟩
    have hb : i.val = j.val + (i.val - j.val - 1) + 1 := by omega
    have hpath := chainBack_path hne hall (i.val - j.val - 1) j.val
    rw [← hb] at hpath
    rw [hgeq] at hpath
    exact hpath

theorem topoAux_none_cycle {edges : List Edge} :
    ∀ {fuel : Nat} {rem : List PyNode}, rem.length ≤ fuel →
      topoAux edges fuel rem = none → ∃ v, EPath edges v v := by
  intro fuel
  induction fuel with
  | zero =>
    intro rem hlen h
    have hnil : rem = [] := List.eq_nil_of_length_eq_zero (Nat.le_zero.mp hlen)
    subst hnil
    simp [topoAux] at h
  | succ n ih =>
    intro rem hlen h
    cases rem with
    | nil => simp [topoAux] at h
    | cons r rs =>
      simp only [topoAux] at h
      cases hf : (r :: rs).find? (fun v => ! hasIncomingFrom edges (r :: rs) v) with
      | none =>
        have hall : ∀ v ∈ r :: rs, ∃ u ∈ r :: rs, (u, v) ∈ edges := by
          intro v hv
          have hnf := List.find?_eq_none.mp hf v hv
          simp only [Bool.not_eq_true', Bool.not_eq_false, hasIncomingFrom,
            List.any_eq_true, decide_eq_true_eq] at hnf
          exact hnf
        exact cycle_of_all_incoming (by simp) hall
      | some v =>
        rw [hf] at h
        simp only [Option.map_eq_none'] at h
        have hv : v ∈ r :: rs := List.mem_of_find?_eq_some hf
        refine ih ?_ h
        rw [List.length_erase_of_mem hv]
        simp only [List.length_cons] at hlen ⊢
        omega

theorem topologicalSort_isSome_iff {g : Graph}
    (hWF : ∀ e ∈ g.edges, e.1 ∈ g.nodes ∧ e.2 ∈ g.nodes) :
    (topologicalSort g).isSome ↔ g.Acyclic := by
  constructor
  · intro h
    cases hs : topologicalSort g with
    | none => rw [hs] at h; cases h
    | some ord => exact topologicalSort_some_acyclic hWF hs
  · intro hac
    by_contra h
    cases hs : topologicalSort g with
    | some ord => rw [hs] at h; simp at h
    | none =>
      obtain ⟨v, hv⟩ := topoAux_none_cycle (Nat.le_refl _) hs
      exact hac v hv

/-! ### Weak connectivity (model of `nx.is_weakly_connected`)

`nx.is_weakly_connected(G)` decides whether the underlying undirected graph
is connected (raising on the null graph, which `is_tree` already guards).
The model computes the undirected reachable set of the first node by
saturation and checks it covers all nodes; its contract is proved against
the relational definition `WConn`. -/

/-- One undirected step: an edge between `u` and `v` in either direction. -/
def UStep (g : Graph) (u v : PyNode) : Prop := (u, v) ∈ g.edges ∨ (v, u) ∈ g.edges

/-- Undirected reachability (reflexive-transitive closure of `UStep`). -/
def URe (g : Graph) : PyNode → PyNode → Prop := Relation.ReflTransGen (UStep g)

/-- The underlying undirected graph is connected: all nodes mutually
undirected-reachable. -/
def WConn (g : Graph) : Prop := ∀ u ∈ g.nodes, ∀ v ∈ g.nodes, URe g u v

/-- Boolean test for an undirected edge between `u` and `v`. -/
def adjacentB (g : Graph) (u v : PyNode) : Bool :=
  decide ((u, v) ∈ g.edges) || decide ((v, u) ∈ g.edges)

/-- Grow a node set by all nodes undirected-adjacent to it. -/
def uexpand (g : Graph) (s : List PyNode) : List PyNode :=
  s ++ g.nodes.filter (fun v => decide (v ∉ s) && s.any (fun u => adjacentB g u v))

/-- Undirected reachable set of the graph's first node, by saturation. -/
def ureachSet (g : Graph) : List PyNode :=
  (uexpand g)^[g.nodes.length] [g.nodes.headD (PyNode.str "")]

/-- Model of `nx.is_weakly_connected(G)` for a nonempty graph. -/
def is_weakly_connected (g : Graph) : Bool :=
  g.nodes.all (fun v => decide (v ∈ ureachSet g))

theorem UStep.rev_step {g : Graph} {u v : PyNode} (h : UStep g u v) : UStep g v u :=
  h.elim Or.inr Or.inl

theorem URe.rev_reach {g : Graph} {u v : PyNode} (h : URe g u v) : URe g v u := by
  induction h with
  | refl => exact Relation.ReflTransGen.refl
  | tail _ hstep ih =>
    exact Relation.ReflTransGen.trans (Relation.ReflTransGen.single hstep.rev_step) ih

theorem uexpand_sound {g : Graph} {h0 : PyNode} :
    ∀ (k : Nat) (v : PyNode), v ∈ (uexpand g)^[k] [h0] → URe g h0 v := by
  intro k
  induction k with
  | zero =>
    intro v hv
    simp only [Function.iterate_zero, id_eq, List.mem_singleton] at hv
    exact hv ▸ Relation.ReflTransGen.refl
  | succ k ih =>
    intro v hv
    rw [Function.iterate_succ_apply'] at hv
    rcases List.mem_append.mp hv with hv | hv
    · exact ih v hv
    · have := List.of_mem_filter hv
      simp only [Bool.and_eq_true, List.any_eq_true, decide_eq_true_eq] at this
      obtain ⟨-, u, hu, hadj⟩ := this
      have hstep : UStep g u v := by
        unfold adjacentB at hadj
        simpa [UStep] using hadj
      exact Relation.ReflTransGen.tail (ih u hu) hstep

theorem uexpand_sublist {g : Graph} (s : List PyNode) : s.Sublist (uexpand g s) :=
  List.sublist_append_left s _

theorem iterate_uexpand_sublist {g : Graph} (x : List PyNode) :
    ∀ k, x.Sublist ((uexpand g)^[k] x) := by
  intro k
  induction k with
  | zero => simp
  | succ k ih =>
    rw [Function.iterate_succ_apply']
    exact ih.trans (uexpand_sublist _)

theorem uexpand_subset_nodes {g : Graph} {s : List PyNode}
    (hs : ∀ v ∈ s, v ∈ g.nodes) : ∀ v ∈ uexpand g s, v ∈ g.nodes := by
  intro v hv
  rcases List.mem_append.mp hv with hv | hv
  · exact hs v hv
  · exact List.mem_of_mem_filter hv

theorem iterate_uexpand_subset_nodes {g : Graph} {x : List PyNode}
    (hx : ∀ v ∈ x, v ∈ g.nodes) :
    ∀ k, ∀ v ∈ (uexpand g)^[k] x, v ∈ g.nodes := by
  intro k
  induction k with
  | zero => simpa
  | succ k ih =>
    rw [Function.iterate_succ_apply']
    exact uexpand_subset_nodes ih

theorem uexpand_nodup {g : Graph} (hg : g.nodes.Nodup) {s : List PyNode}
    (hs : s.Nodup) : (uexpand g s).Nodup := by
  unfold uexpand
  refine List.Nodup.append hs (hg.filter _) ?_
  intro a ha hafilter
  have := List.of_mem_filter hafilter
  simp only [Bool.and_eq_true, decide_eq_true_eq] at this
  exact this.1 ha

theorem iterate_uexpand_nodup {g : Graph} (hg : g.nodes.Nodup) {x : List PyNode}
    (hx : x.Nodup) : ∀ k, ((uexpand g)^[k] x).Nodup := by
  intro k
  induction k with
  | zero => simpa
  | succ k ih =>
    rw [Function.iterate_succ_apply']
    exact uexpand_nodup hg ih

theorem nodup_subset_length_le {s t : List PyNode} (hs : s.Nodup)
    (hsub : ∀ v ∈ s, v ∈ t) : s.length ≤ t.length := by
  classical
  have h1 : s.toFinset.card = s.length := by
    rw [List.card_toFinset, List.Nodup.dedup hs]
  have h2 : s.toFinset ⊆ t.toFinset := by
    intro a ha
    rw [List.mem_toFinset] at ha ⊢
    exact hsub a ha
  have h3 := Finset.card_le_card h2
  have h4 := List.toFinset_card_le t
  omega

theorem uexpand_grow {g : Graph} {s : List PyNode} (hne : uexpand g s ≠ s) :
    s.length < (uexpand g s).length := by
  unfold uexpand at hne ⊢
  have hfil : g.nodes.filter
      (fun v => decide (v ∉ s) && s.any (fun u => adjacentB g u v)) ≠ [] := by
    intro hnil
    apply hne
    rw [hnil, List.append_nil]
  rw [List.length_append]
  have hpos := List.length_pos.mpr hfil
  omega

theorem uexpand_fix_stays {g : Graph} {s : List PyNode} (hfix : uexpand g s = s) :
    ∀ m, (uexpand g)^[m] s = s := by
  intro m
  induction m with
  | zero => rfl
  | succ m ih => rw [Function.iterate_succ_apply, hfix, ih]

theorem iterate_growth {g : Graph} {x : List PyNode} :
    ∀ m, (∀ k, k < m → uexpand g ((uexpand g)^[k] x) ≠ (uexpand g)^[k] x) →
      x.length + m ≤ ((uexpand g)^[m] x).length := by
  intro m
  induction m with
  | zero => intro _; simp
  | succ m ih =>
    intro h
    have h1 := ih (fun k hk => h k (Nat.lt_succ_of_lt hk))
    have h2 : uexpand g ((uexpand g)^[m] x) ≠ (uexpand g)^[m] x :=
      h m (Nat.lt_succ_self m)
    have h3 := uexpand_grow h2
    rw [Function.iterate_succ_apply']
    omega

theorem ureachSet_fix {g : Graph} (hg : g.nodes.Nodup) (hne : g.nodes ≠ []) :
    uexpand g (ureachSet g) = ureachSet g := by
  classical
  have hxsub : ∀ v ∈ [g.nodes.headD (PyNode.str "")], v ∈ g.nodes := by
    intro v hv
    simp only [List.mem_singleton] at hv
    subst hv
    cases hcase : g.nodes with
    | nil => exact absurd hcase hne
    | cons a l => simp [hcase]
  unfold ureachSet
  by_cases hfixall : ∃ k, k < g.nodes.length ∧
      uexpand g ((uexpand g)^[k] [g.nodes.headD (PyNode.str "")]) =
        (uexpand g)^[k] [g.nodes.headD (PyNode.str "")]
  · obtain ⟨k, hk, hfix⟩ := hfixall
    have hsplit : (uexpand g)^[g.nodes.length] [g.nodes.headD (PyNode.str "")] =
        (uexpand g)^[g.nodes.length - k]
          ((uexpand g)^[k] [g.nodes.headD (PyNode.str "")]) := by
      rw [← Function.iterate_add_apply]
      congr 1
      omega
    have hstay := uexpand_fix_stays hfix (g.nodes.length - k)
    rw [hsplit, hstay, hfix]
  · exfalso
    push_neg at hfixall
    have hgrow := iterate_growth (g := g)
      (x := [g.nodes.headD (PyNode.str "")]) g.nodes.length hfixall
    have hnodup := iterate_uexpand_nodup hg
      (x := [g.nodes.headD (PyNode.str "")]) (by simp) g.nodes.length
    have hsub := iterate_uexpand_subset_nodes hxsub g.nodes.length
    have hle := nodup_subset_length_le hnodup hsub
    simp only [List.length_singleton] at hgrow
    omega

theorem ureachSet_closed {g : Graph} (hg : g.nodes.Nodup) (hne : g.nodes ≠ [])
    {u v : PyNode} (hu : u ∈ ureachSet g) (hv : v ∈ g.nodes)
    (hstep : UStep g u v) : v ∈ ureachSet g := by
  by_contra hvnot
  have hfix := ureachSet_fix hg hne
  have hmem : v ∈ uexpand g (ureachSet g) := by
    unfold uexpand
    refine List.mem_append.mpr (Or.inr ?_)
    rw [List.mem_filter]
    refine ⟨hv, ?_⟩
    simp only [Bool.and_eq_true, decide_eq_true_eq, List.any_eq_true]
    refine ⟨hvnot, u, hu, ?_⟩
    unfold adjacentB
    rcases hstep with h | h <;> simp [h]
  rw [hfix] at hmem
  exact hvnot hmem

theorem ureachSet_complete {g : Graph} (hWF : g.WF) (hne : g.nodes ≠ [])
    {v : PyNode} (hv : URe g (g.nodes.headD (PyNode.str "")) v)
    (hvnodes : v ∈ g.nodes) : v ∈ ureachSet g := by
  obtain ⟨hnodup, hednodup, hvalid⟩ := hWF
  revert hvnodes
  induction hv with
  | refl =>
    intro _
    have hh : (g.nodes.headD (PyNode.str "")) ∈ [g.nodes.headD (PyNode.str "")] := by
      simp
    exact (iterate_uexpand_sublist _ g.nodes.length).subset hh
  | tail hre hstep ih =>
    intro hvnodes
    rename_i b c
    have humem : b ∈ g.nodes := by
      rcases hstep with h | h
      · exact (hvalid _ h).1
      · exact (hvalid _ h).2
    exact ureachSet_closed hnodup hne (ih humem) hvnodes hstep

theorem is_weakly_connected_iff {g : Graph} (hWF : g.WF) (hne : g.nodes ≠ []) :
    is_weakly_connected g = true ↔ WConn g := by
  constructor
  · intro h u hu v hv
    have hall := List.all_eq_true.mp h
    have hu' : u ∈ ureachSet g := by simpa using hall u hu
    have hv' : v ∈ ureachSet g := by simpa using hall v hv
    exact Relation.ReflTransGen.trans
      (URe.rev_reach (uexpand_sound _ u hu')) (uexpand_sound _ v hv')
  · intro h
    unfold is_weakly_connected
    rw [List.all_eq_true]
    intro v hv
    have hhead : g.nodes.headD (PyNode.str "") ∈ g.nodes := by
      cases hcase : g.nodes with
      | nil => exact absurd hcase hne
      | cons a l => simp [hcase]
    have hre := h _ hhead v hv
    simp only [decide_eq_true_eq]
    exact ureachSet_complete hWF hne hre hv

/-! ### The validator (`check_network`, lines 67-111) and `get_network` -/

/-- Model of `nx.is_directed(G)`: the loader and all derived graphs are
`DiGraph`s, for which this is constantly true. -/
def is_directed (_g : Graph) : Bool := true

/-- Model of `nx.is_directed_acyclic_graph(G)`: true exactly when a
topological sort exists. -/
def is_directed_acyclic_graph (g : Graph) : Bool := (topologicalSort g).isSome

/-- Model of `nx.is_tree(G)` for a directed graph: raises
`NetworkXPointlessConcept` on a graph with no nodes, otherwise decides
`|E| = |N| - 1` together with weak connectivity (short-circuited, exactly as
the Python `and` does). -/
def is_tree (g : Graph) : Except String Bool :=
  if g.nodes.length = 0 then
    Except.error "NetworkXPointlessConcept: G has no nodes."
  else
    Except.ok (decide (g.nodes.length - 1 = g.edges.length) && is_weakly_connected g)

/-- Model of `check_network` (network.py lines 67-111): returns `False` when
the graph is not a DAG, `False` at the (unreachable) not-directed guard,
then evaluates `nx.is_tree` — whose `NetworkXPointlessConcept` exception
propagates — returning `False` when it is not a tree and `True` otherwise. -/
def check_network (g : Graph) : Except String Bool :=
  if is_directed_acyclic_graph g = false then Except.ok false
  else if is_directed g = false then Except.ok false
  else
    match is_tree g with
    | Except.error e => Except.error e
    | Except.ok t => if t = false then Except.ok false else Except.ok true

/-- Model of `get_network` (network.py lines 51-64): parse, then validate;
returns the graph when validation passes, `None` when it returns false, and
propagates exceptions from either stage. -/
def get_network (lines : List String) : Except String (Option Graph) := do
  let net ← get_raw_network lines
  let ok ← check_network net
  if ok then return (some net) else return none

/-- C3: for every (well-formed) graph, the validator `check_network` returns
success (`True`) if and only if the graph is acyclic, directed, weakly
connected, and has exactly one edge fewer than it has nodes. -/
theorem check_network_ok_iff (g : Graph) (hWF : g.WF) :
    check_network g = Except.ok true ↔
      (g.Acyclic ∧ is_directed g = true ∧ WConn g ∧
        g.nodes.length = g.edges.length + 1) := by
  have hvalid := hWF.2.2
  constructor
  · intro h
    cases hdag : is_directed_acyclic_graph g with
    | false => simp [check_network, hdag] at h
    | true =>
      have hac : g.Acyclic := by
        refine (topologicalSort_isSome_iff hvalid).mp ?_
        unfold is_directed_acyclic_graph at hdag
        exact hdag
      simp only [check_network, hdag, is_directed] at h
      unfold is_tree at h
      by_cases hlen : g.nodes.length = 0
      · simp [hlen] at h
      · simp only [hlen, if_false, if_neg] at h
        have hne : g.nodes ≠ [] := fun hnil => hlen (by rw [hnil]; rfl)
        by_cases ht : (decide (g.nodes.length - 1 = g.edges.length) &&
            is_weakly_connected g) = false
        · simp [ht] at h
        · rw [Bool.not_eq_false] at ht
          simp only [Bool.and_eq_true, decide_eq_true_eq] at ht
          refine ⟨hac, rfl, (is_weakly_connected_iff hWF hne).mp ht.2, ?_⟩
          omega
  · rintro ⟨hac, -, hconn, hcount⟩
    have hdag : is_directed_acyclic_graph g = true := by
      unfold is_directed_acyclic_graph
      exact (topologicalSort_isSome_iff hvalid).mpr hac
    have hne : g.nodes ≠ [] := by
      intro hnil
      rw [hnil] at hcount
      simp at hcount
    have hwc : is_weakly_connected g = true :=
      (is_weakly_connected_iff hWF hne).mpr hconn
    have hlen : g.nodes.length ≠ 0 := by
      intro h0
      exact hne (List.eq_nil_of_length_eq_zero h0)
    simp only [check_network, hdag, is_directed, is_tree, hlen, if_false]
    have hdec : decide (g.nodes.length - 1 = g.edges.length) = true := by
      rw [decide_eq_true_eq]
      omega
    simp [hdec, hwc]

/-- Witness for C3 at a concrete valid tree (edges `1 → 2`, `2 → 3`). -/
theorem check_network_ok_iff_witness :
    check_network (Graph.empty.addEdgesFrom
      [(PyNode.int 1, PyNode.int 2), (PyNode.int 2, PyNode.int 3)]) =
      Except.ok true := by
  have hWF : (Graph.empty.addEdgesFrom
      [(PyNode.int 1, PyNode.int 2), (PyNode.int 2, PyNode.int 3)]).WF := by
    decide
  rw [check_network_ok_iff _ hWF]
  refine ⟨?_, rfl, ?_, by decide⟩
  · exact (topologicalSort_isSome_iff (fun e he => hWF.2.2 e he)).mp (by decide)
  · intro u hu v hv
    have h12 : URe (Graph.empty.addEdgesFrom
        [(PyNode.int 1, PyNode.int 2), (PyNode.int 2, PyNode.int 3)])
        (PyNode.int 1) (PyNode.int 2) :=
      Relation.ReflTransGen.single (Or.inl (by decide))
    have h23 : URe (Graph.empty.addEdgesFrom
        [(PyNode.int 1, PyNode.int 2), (PyNode.int 2, PyNode.int 3)])
        (PyNode.int 2) (PyNode.int 3) :=
      Relation.ReflTransGen.single (Or.inl (by decide))
    fin_cases hu <;> fin_cases hv <;>
      first
        | exact Relation.ReflTransGen.refl
        | exact h12
        | exact h23
        | exact Relation.ReflTransGen.trans h12 h23
        | exact URe.rev_reach h12
        | exact URe.rev_reach h23
        | exact URe.rev_reach (Relation.ReflTransGen.trans h12 h23)

/-- C10: on a graph with no nodes — exactly what loading an empty topology
file produces — `check_network` does not return a boolean verdict but raises
(`nx.is_tree`'s `NetworkXPointlessConcept`), and `get_network` on the empty
file therefore raises instead of returning the absent result. -/
theorem check_network_empty_raises :
    (∀ g : Graph, g.nodes = [] →
      check_network g = Except.error "NetworkXPointlessConcept: G has no nodes.") ∧
    get_raw_network [] = Except.ok Graph.empty ∧
    get_network [] = Except.error "NetworkXPointlessConcept: G has no nodes." := by
  refine ⟨?_, rfl, rfl⟩
  intro g hg
  have hdag : is_directed_acyclic_graph g = true := by
    unfold is_directed_acyclic_graph topologicalSort
    rw [hg]
    rfl
  have hlen : g.nodes.length = 0 := by rw [hg]; rfl
  simp [check_network, hdag, is_directed, is_tree, hlen]

/-- Witness for C10: the first conjunct applied at the empty graph. -/
theorem check_network_empty_raises_witness :
    check_network Graph.empty =
      Except.error "NetworkXPointlessConcept: G has no nodes." :=
  check_network_empty_raises.1 Graph.empty rfl

/-- Mapping a fallible parser over a list fails whenever some element fails. -/
theorem mapM_error_of_mem {α β : Type} (f : α → Except String β) :
    ∀ (l : List α), (∃ x ∈ l, ∃ e, f x = Except.error e) →
      ∃ e, l.mapM f = Except.error e := by
  intro l
  induction l with
  | nil =>
    rintro ⟨x, hx, -⟩
    cases hx
  | cons a l ih =>
    rintro ⟨x, hx, e, he⟩
    cases hfa : f a with
    | error e' =>
      refine ⟨e', ?_⟩
      rw [List.mapM_cons, hfa]
      rfl
    | ok b =>
      rcases List.mem_cons.mp hx with rfl | hx'
      · rw [hfa] at he; cases he
      · obtain ⟨e2, he2⟩ := ih ⟨x, hx', e, he⟩
        refine ⟨e2, ?_⟩
        rw [List.mapM_cons, hfa]
        show List.cons b <$> List.mapM f l = Except.error e2
        rw [he2]
        rfl

/-- C4: a topology file with some line holding fewer than two whitespace
tokens makes the loader `get_raw_network` fail with the malformed-input
(`IndexError`) exception; no graph — in particular no partial graph built
from the other lines — is returned. -/
theorem get_raw_network_malformed (lines : List String)
    (h : ∃ l ∈ lines, (tokenize l).length < 2) :
    ∃ e, get_raw_network lines = Except.error e := by
  obtain ⟨l, hl, hlen⟩ := h
  have herr : ∃ e, parseTopologyLine l = Except.error e := by
    unfold parseTopologyLine
    cases htok : tokenize l with
    | nil =>
      exact ⟨"IndexError: list index out of range", by simp [htok]⟩
    | cons a t =>
      cases t with
      | nil =>
        exact ⟨"IndexError: list index out of range", by simp [htok]⟩
      | cons b t' =>
        exfalso
        rw [htok] at hlen
        simp only [List.length_cons] at hlen
        omega
  obtain ⟨e0, he0⟩ := herr
  obtain ⟨e, he⟩ := mapM_error_of_mem parseTopologyLine lines ⟨l, hl, e0, he0⟩
  refine ⟨e, ?_⟩
  unfold get_raw_network
  rw [he]
  rfl

/-- Witness for C4: the file `["1 2", "3"]` has a one-token line and fails. -/
theorem get_raw_network_malformed_witness :
    ∃ e, get_raw_network ["1 2", "3"] = Except.error e :=
  get_raw_network_malformed ["1 2", "3"] ⟨"3", by decide, by decide⟩

/-! ### Flow-direction traversal (`get_up_streem_network`, lines 114-127,
and `get_downstream_network`, lines 243-274) -/

/-- Induced subgraph `G.subgraph(ns)`: the nodes of `G` lying in `ns` (in
`G`'s order) and every edge of `G` between them. -/
def Graph.subgraph (g : Graph) (ns : List PyNode) : Graph :=
  { nodes := g.nodes.filter (fun n => decide (n ∈ ns)),
    edges := g.edges.filter (fun e => decide (e.1 ∈ ns) && decide (e.2 ∈ ns)) }

/-- Model of `G.remove_nodes_from(ns)`: drop the nodes and every edge
incident to one of them. -/
def Graph.removeNodes (g : Graph) (ns : List PyNode) : Graph :=
  { nodes := g.nodes.filter (fun n => decide (n ∉ ns)),
    edges := g.edges.filter (fun e => decide (e.1 ∉ ns) && decide (e.2 ∉ ns)) }

/-- Worker for reverse breadth-first discovery: `disc` is the discovered
node list in discovery order, `queue` the frontier still to expand. -/
def bfsRevAux (g : Graph) : Nat → List PyNode → List PyNode → List PyNode
  | 0, disc, _ => disc
  | _ + 1, disc, [] => disc
  | fuel + 1, disc, cur :: queue =>
    let fresh := (g.predecessors cur).foldl
      (fun acc m => if m ∈ disc ++ acc then acc else acc ++ [m]) []
    bfsRevAux g fuel (disc ++ fresh) (queue ++ fresh)

/-- Node list of `nx.bfs_tree(net, node, reverse=True)`: the source and all
its ancestors (nodes with a directed path into `node`), in breadth-first
discovery order. -/
def bfsRevNodes (g : Graph) (source : PyNode) : List PyNode :=
  bfsRevAux g (g.nodes.length + 1) [source] [source]

/-- Model of `get_up_streem_network` (lines 114-127): collect the nodes of
`nx.bfs_tree(net, node, reverse=True)`, take the induced subgraph of `net`
over them, and copy it into a fresh `DiGraph` (the copy is value identity
here; the freshness itself is treated in the reference-store model below). -/
def get_up_streem_network (net : Graph) (node : PyNode) : Graph :=
  net.subgraph (bfsRevNodes net node)

/-- Model of `get_downstream_network` (lines 243-274).  After the membership
guard the source evaluates `set(net.nodes) - upstream_nodes`, where
`upstream_nodes` is the `DiGraph` returned by `get_up_streem_network` — not
a set of nodes.  Python's built-in set difference accepts only another set,
and networkx graphs define no reflected subtraction, so every call that
passes the guard raises `TypeError`; the function can never build the
complement subgraph its docstring promises. -/
def get_downstream_network (net : Graph) (node : PyNode) : Except String Graph :=
  if node ∉ net.nodes then
    Except.error "NetworkXError: the node is not in the graph."
  else
    let _upstream_nodes := get_up_streem_network net node
    Except.error "TypeError: unsupported operand type(s) for -: 'set' and 'DiGraph'"

/-- The spec's running example network, edges `1→2`, `2→3`, `3→4`, `2→5`. -/
def exampleNet : Graph :=
  Graph.empty.addEdgesFrom
    [(PyNode.int 1, PyNode.int 2), (PyNode.int 2, PyNode.int 3),
     (PyNode.int 3, PyNode.int 4), (PyNode.int 2, PyNode.int 5)]

/-- C1 (code bug): for every node of every network, the downstream operation
raises `TypeError` instead of returning the complementary subgraph — line
272 subtracts the upstream `DiGraph` object itself, not its node set, from
`set(net.nodes)` — so the claimed upstream/downstream partition of the node
set never materializes. -/
theorem get_downstream_network_raises (net : Graph) (node : PyNode)
    (h : node ∈ net.nodes) :
    get_downstream_network net node =
      Except.error "TypeError: unsupported operand type(s) for -: 'set' and 'DiGraph'" := by
  unfold get_downstream_network
  rw [if_neg (by simpa using h)]

/-- Witness for C1 at the example network and pivot node `2`; the upstream
side meanwhile is the healthy half of the claim: it contains the pivot and
exactly its ancestors. -/
theorem get_downstream_network_raises_witness :
    get_downstream_network exampleNet (PyNode.int 2) =
      Except.error "TypeError: unsupported operand type(s) for -: 'set' and 'DiGraph'" ∧
    (get_up_streem_network exampleNet (PyNode.int 2)).nodes =
      [PyNode.int 1, PyNode.int 2] :=
  ⟨get_downstream_network_raises exampleNet (PyNode.int 2) (by decide), by decide⟩

/-! ### Python dictionaries (insertion-ordered association lists) -/

/-- Python `d[k] = v`: overwrite in place when the key exists, else append. -/
def dictSet {α β : Type} [DecidableEq α] (d : List (α × β)) (k : α) (v : β) :
    List (α × β) :=
  if k ∈ d.map Prod.fst then
    d.map (fun kv => if kv.1 = k then (k, v) else kv)
  else
    d ++ [(k, v)]

/-- Python `d.get(k)` / `d[k]` lookup (first — and for unique keys, only —
binding). -/
def dictGet? {α β : Type} [DecidableEq α] (d : List (α × β)) (k : α) : Option β :=
  (d.find? (fun kv => decide (kv.1 = k))).map Prod.snd

/-- Python `d.pop(k)`'s removal effect. -/
def dictPop {α β : Type} [DecidableEq α] (d : List (α × β)) (k : α) : List (α × β) :=
  d.filter (fun kv => decide (kv.1 ≠ k))

/-! ### Gauge annotation (`filter_to_calibrate`, lines 130-161, and
`get_subgraph`, lines 164-240) -/

/-- Model of `filter_to_calibrate` (lines 130-161): for each candidate node
that is (still) in the graph and is not the outlet, delete every node of
`nx.bfs_tree(net, value, reverse=True)` other than the candidate itself —
its strict ancestors — from the graph.  Python mutates `net` in place and
returns it; the model threads the state through the fold and returns the
final state. -/
def filter_to_calibrate (net : Graph) (nodes : List PyNode) (outlet : PyNode) :
    Graph :=
  nodes.foldl
    (fun net value =>
      if value ∈ net.nodes ∧ value ≠ outlet then
        net.removeNodes ((bfsRevNodes net value).filter (fun n => decide (n ≠ value)))
      else net)
    net

/-- An annotated graph: the node set and edges plus the per-node `gauge` and
`calibrate` attribute stores written by `get_subgraph` (attribute values are
the Python objects used by the source: an optional string for `gauge`, the
strings `"True"`/`"False"` for `calibrate`). -/
structure AGraph where
  graph : Graph
  gaugeAttr : List (PyNode × Option String)
  calibAttr : List (PyNode × String)
deriving DecidableEq, Repr

/-- One iteration of the attribute-propagation loop (lines 221-235) at
`node`: a retained gauge node takes its own gauge id and is `"True"` exactly
when it is the outlet; any other node inherits both attributes from its
first predecessor, or gets `gauge = None`, `calibrate = "False"` when it has
none.  The `KeyError` branch models `reversed_dict[node]` on a node that is
in `gauge.values()` but not a key of `reversed_dict`. -/
def annotStep (gr : Graph) (gaugeVals : List PyNode)
    (revD : List (PyNode × String)) (outlet : PyNode)
    (maps : List (PyNode × Option String) × List (PyNode × String))
    (node : PyNode) :
    Except String (List (PyNode × Option String) × List (PyNode × String)) :=
  if node ∈ gaugeVals then
    match dictGet? revD node with
    | none => Except.error "KeyError: node not in reversed_dict"
    | some gk =>
      let calibrate := if node = outlet then "True" else "False"
      Except.ok (dictSet maps.1 node (some gk), dictSet maps.2 node calibrate)
  else
    match gr.predecessors node with
    | [] => Except.ok (dictSet maps.1 node none, dictSet maps.2 node "False")
    | p :: _ =>
      let calibrate := (dictGet? maps.2 p).getD "KeyError"
      let gk := (dictGet? maps.1 p).getD none
      Except.ok (dictSet maps.1 node gk, dictSet maps.2 node calibrate)

/-- The source's `reversed_dict = dict((v, k) for k, v in gauge.items())`:
node → gauge id, later entries overwriting earlier ones. -/
def buildRev (gauge : List (String × PyNode)) : List (PyNode × String) :=
  gauge.foldl (fun d kv => dictSet d kv.2 kv.1) []

/-- The source's `keys_to_remove`: nodes of the reversed dictionary missing
from the upstream subnetwork. -/
def keysToRemove (revD : List (PyNode × String)) (up : Graph) : List PyNode :=
  (revD.filter (fun kv => decide (kv.1 ∉ up.nodes))).map Prod.fst

/-- One pruning iteration (lines 207-209): `value = reversed_dict.pop(key);
gauge.pop(value)`.  The keys come from the reversed dictionary itself, so
the lookup always succeeds; the identity fallback is unreachable. -/
def pruneStep
    (rg : List (PyNode × String) × List (String × PyNode)) (key : PyNode) :
    List (PyNode × String) × List (String × PyNode) :=
  match dictGet? rg.1 key with
  | none => rg
  | some value => (dictPop rg.1 key, dictPop rg.2 value)

/-- The reversed dictionary and gauge map after the pruning loop. -/
def prunedMaps (net : Graph) (gauge : List (String × PyNode))
    (outlet : PyNode) :
    List (PyNode × String) × List (String × PyNode) :=
  (keysToRemove (buildRev gauge) (get_up_streem_network net outlet)).foldl
    pruneStep (buildRev gauge, gauge)

/-- The graph annotated by `get_subgraph`: the upstream subnetwork, filtered
for calibration when requested, with the synthetic sink edge attached. -/
def calibGraph (net : Graph) (gauge : List (String × PyNode))
    (outlet : PyNode) (is_calibration : Bool) : Graph :=
  (if is_calibration then
     filter_to_calibrate (get_up_streem_network net outlet)
       ((prunedMaps net gauge outlet).1.map Prod.fst) outlet
   else get_up_streem_network net outlet).addEdge outlet (PyNode.str "0")

/-- Model of `get_subgraph` (lines 164-240): resolve the outlet from the
gauge map (`KeyError` when absent), build the upstream subnetwork (the BFS
raises when the outlet is not a node of `net`), build the reversed gauge
dictionary, prune both dictionaries — in place, in Python — of entries
whose node is missing from the upstream subnetwork, optionally apply the
calibration filter, attach the synthetic sink edge `outlet → "0"`,
initialize the `gauge`/`calibrate` attributes on every node, and finally
overwrite them for each node in topological order (`NetworkXUnfeasible`
propagates when the graph is cyclic).  The result pairs the annotated graph
with the final pruned gauge mapping.  (The source's trailing
`if '0' not in net_up` check only prints.) -/
def get_subgraph (net : Graph) (gauge : List (String × PyNode))
    (gauge_id : String) (is_calibration : Bool) :
    Except String (AGraph × List (String × PyNode)) :=
  match dictGet? gauge gauge_id with
  | none => Except.error "KeyError: gauge_id"
  | some outlet =>
    if outlet ∉ net.nodes then
      Except.error "NetworkXError: the node is not in the graph."
    else
      match topologicalSort (calibGraph net gauge outlet is_calibration) with
      | none => Except.error "NetworkXUnfeasible: graph contains a cycle"
      | some ord =>
        match ord.foldlM
            (annotStep (calibGraph net gauge outlet is_calibration)
              ((prunedMaps net gauge outlet).2.map Prod.snd)
              (prunedMaps net gauge outlet).1 outlet)
            ((calibGraph net gauge outlet is_calibration).nodes.map
               (fun n => (n, (some gauge_id : Option String))),
             (calibGraph net gauge outlet is_calibration).nodes.map
               (fun n => (n, "True"))) with
        | Except.error e => Except.error e
        | Except.ok maps =>
          Except.ok
            ({ graph := calibGraph net gauge outlet is_calibration,
               gaugeAttr := maps.1, calibAttr := maps.2 },
             (prunedMaps net gauge outlet).2)

/-- The spec's example gauge map for `exampleNet`. -/
def exampleGauge : List (String × PyNode) :=
  [("g1", PyNode.int 1), ("g2", PyNode.int 2), ("g3", PyNode.int 3)]

/-- C2 counterexample: on the spec's example input (`edges
(1,2),(2,3),(3,4),(2,5)`, gauge map `g1↦1, g2↦2, g3↦3`, gauge id `"g2"`,
`is_calibration = False`) the node set returned by `get_subgraph` is
`[1, 2, "0"]`; it does not contain the nodes `3`, `4`, `5` the claim
requires, and it does contain `1`, which the claim excludes. -/
theorem get_subgraph_example_counterexample :
    (get_subgraph exampleNet exampleGauge "g2" false).map
        (fun rg => rg.1.graph.nodes) =
      Except.ok [PyNode.int 1, PyNode.int 2, PyNode.str "0"] ∧
    PyNode.int 3 ∉ [PyNode.int 1, PyNode.int 2, PyNode.str "0"] ∧
    PyNode.int 5 ∉ [PyNode.int 1, PyNode.int 2, PyNode.str "0"] ∧
    PyNode.int 1 ∈ [PyNode.int 1, PyNode.int 2, PyNode.str "0"] := by
  refine ⟨by decide, by decide, by decide, by decide⟩

/-- C2 amended: on the example input `get_subgraph` returns a graph whose
node set is exactly the pivot's ancestors plus the pivot plus the attached
sink, i.e. `1, 2 and "0"`. -/
theorem get_subgraph_example_nodes :
    ∀ ns, (get_subgraph exampleNet exampleGauge "g2" false).map
        (fun rg => rg.1.graph.nodes) = Except.ok ns →
      ∀ n, n ∈ ns ↔
        (n = PyNode.int 1 ∨ n = PyNode.int 2 ∨ n = PyNode.str "0") := by
  intro ns h n
  have hev : (get_subgraph exampleNet exampleGauge "g2" false).map
      (fun rg => rg.1.graph.nodes) =
      Except.ok [PyNode.int 1, PyNode.int 2, PyNode.str "0"] := by decide
  rw [hev] at h
  injection h with h
  subst h
  simp

/-- Witness for the amended C2 at the evaluated node list. -/
theorem get_subgraph_example_nodes_witness :
    PyNode.int 1 ∈ [PyNode.int 1, PyNode.int 2, PyNode.str "0"] ∧
    PyNode.int 3 ∉ [PyNode.int 1, PyNode.int 2, PyNode.str "0"] := by
  have h := get_subgraph_example_nodes
    [PyNode.int 1, PyNode.int 2, PyNode.str "0"] (by decide)
  constructor
  · exact (h (PyNode.int 1)).mpr (Or.inl rfl)
  · intro hmem
    rcases (h (PyNode.int 3)).mp hmem with h1 | h1 | h1 <;> cases h1

/-! ### `create_stream_gauge_dictionary` (lines 323-351) -/

/-- Model of `create_stream_gauge_dictionary` (lines 323-351): parse every
line of the file into the internal gauge → subbasin dictionary
(`gauge[p[0]] = p[1]`, `IndexError` on a line with fewer than two tokens),
then fall off the end of the function without a `return` statement — Python
returns `None`, modelled by the `Unit` result: the dictionary built in
`_gauge` never reaches the caller. -/
def create_stream_gauge_dictionary (lines : List String) :
    Except String Unit := do
  let _gauge ← lines.foldlM
    (fun (gauge : List (String × String)) line =>
      match tokenize line with
      | a :: b :: _ => Except.ok (dictSet gauge a b)
      | _ => Except.error "IndexError: list index out of range")
    []
  return ()

theorem csgd_fold_ok :
    ∀ (lines : List String), (∀ l ∈ lines, 2 ≤ (tokenize l).length) →
    ∀ (init : List (String × String)),
      ∃ d, lines.foldlM
        (fun (gauge : List (String × String)) line =>
          match tokenize line with
          | a :: b :: _ => Except.ok (dictSet gauge a b)
          | _ => Except.error "IndexError: list index out of range")
        init = Except.ok d := by
  intro lines
  induction lines with
  | nil =>
    intro _ init
    exact ⟨init, rfl⟩
  | cons a l ih =>
    intro h init
    cases htok : tokenize a with
    | nil =>
      have h2 := h a (by simp)
      rw [htok] at h2
      simp at h2
    | cons x t =>
      cases t with
      | nil =>
        have h2 := h a (by simp)
        rw [htok] at h2
        simp at h2
      | cons y t' =>
        obtain ⟨d, hd⟩ := ih (fun m hm => h m (by simp [hm])) (dictSet init x y)
        refine ⟨d, ?_⟩
        rw [List.foldlM_cons]
        simp only [htok]
        rw [show (Except.ok (dictSet init x y) :
            Except String (List (String × String))) >>= (fun b =>
              List.foldlM (fun gauge line =>
                match tokenize line with
                | a :: b :: _ => Except.ok (dictSet gauge a b)
                | _ => Except.error "IndexError: list index out of range") b l) =
            List.foldlM (fun gauge line =>
              match tokenize line with
              | a :: b :: _ => Except.ok (dictSet gauge a b)
              | _ => Except.error "IndexError: list index out of range")
              (dictSet init x y) l from rfl]
        exact hd

/-- C9: for every gauge-dictionary file (each line carrying at least the two
required tokens), `create_stream_gauge_dictionary` parses the file and
builds the gauge-to-subbasin mapping internally but always returns no value
(Python `None`), so a caller never receives the parsed dictionary. -/
theorem create_stream_gauge_dictionary_returns_none (lines : List String)
    (h : ∀ l ∈ lines, 2 ≤ (tokenize l).length) :
    create_stream_gauge_dictionary lines = Except.ok () := by
  unfold create_stream_gauge_dictionary
  obtain ⟨d, hd⟩ := csgd_fold_ok lines h []
  rw [hd]
  rfl

/-- Witness for C9 on the file `["g1 5", "g2 7"]`. -/
theorem create_stream_gauge_dictionary_returns_none_witness :
    create_stream_gauge_dictionary ["g1 5", "g2 7"] = Except.ok () :=
  create_stream_gauge_dictionary_returns_none ["g1 5", "g2 7"] (by decide)

/-! ### `sort_node` (lines 354-383) -/

/-- Ordering key of `sorted(nodes, key=lambda x: topological_order.index(x))`:
compare positions in the full topological order. -/
def topoKeyLe (ord : List PyNode) (a b : PyNode) : Bool :=
  decide (ord.indexOf a ≤ ord.indexOf b)

/-- Model of `sort_node` (lines 354-383): materialize the full topological
order (`NetworkXUnfeasible` on a cyclic graph), then return `nodes` stably
sorted by each node's index in that order; `list.index` raises `ValueError`
for a node missing from the order. -/
def sort_node (net : Graph) (nodes : List PyNode) :
    Except String (List PyNode) :=
  match topologicalSort net with
  | none => Except.error "NetworkXUnfeasible: graph contains a cycle"
  | some ord =>
    if nodes.all (fun x => decide (x ∈ ord)) then
      Except.ok (nodes.mergeSort (topoKeyLe ord))
    else Except.error "ValueError: x not in list"

/-- C7: on an acyclic network with `nodes` drawn from its node set,
`sort_node` returns a permutation of `nodes` in which `a` precedes `b`
whenever the network has a directed path from `a` to `b`; on a cyclic
network it fails with the not-acyclic (`NetworkXUnfeasible`) error. -/
theorem sort_node_spec (net : Graph) (hWF : net.WF) (nodes : List PyNode) :
    (net.Acyclic → (∀ x ∈ nodes, x ∈ net.nodes) →
      ∃ l, sort_node net nodes = Except.ok l ∧ l.Perm nodes ∧
        ∀ (i j : Nat) (hi : i < l.length) (hj : j < l.length),
          EPath net.edges (l.get ⟨i, hi⟩) (l.get ⟨j, hj⟩) → i < j) ∧
    ((∃ v, EPath net.edges v v) →
      sort_node net nodes =
        Except.error "NetworkXUnfeasible: graph contains a cycle") := by
  constructor
  · intro hac hmem
    have hsome : (topologicalSort net).isSome :=
      (topologicalSort_isSome_iff hWF.2.2).mpr hac
    obtain ⟨ord, hord⟩ := Option.isSome_iff_exists.mp hsome
    have hperm : ord.Perm net.nodes := topoAux_perm hord
    have hall : nodes.all (fun x => decide (x ∈ ord)) = true := by
      rw [List.all_eq_true]
      intro x hx
      exact decide_eq_true_eq.mpr (hperm.mem_iff.mpr (hmem x hx))
    refine ⟨nodes.mergeSort (topoKeyLe ord), ?_, List.mergeSort_perm nodes _, ?_⟩
    · unfold sort_node
      rw [hord]
      show (if (nodes.all fun x => decide (x ∈ ord)) = true
          then Except.ok (nodes.mergeSort (topoKeyLe ord))
          else Except.error "ValueError: x not in list") =
        Except.ok (nodes.mergeSort (topoKeyLe ord))
      rw [if_pos hall]
    · intro i j hi hj hpath
      have hsorted : List.Pairwise (fun a b => topoKeyLe ord a b = true)
          (nodes.mergeSort (topoKeyLe ord)) := by
        refine List.sorted_mergeSort ?_ ?_ nodes
        · intro a b c hab hbc
          unfold topoKeyLe at hab hbc ⊢
          rw [decide_eq_true_eq] at hab hbc
          exact decide_eq_true_eq.mpr (Nat.le_trans hab hbc)
        · intro a b
          unfold topoKeyLe
          rcases Nat.le_total (ord.indexOf a) (ord.indexOf b) with h | h
          · rw [decide_eq_true_eq.mpr h]; rfl
          · rw [decide_eq_true_eq.mpr h]; simp
      have horder := topo_path_order hWF.2.2 hord hpath
      rcases Nat.lt_trichotomy i j with hlt | heq | hgt
      · exact hlt
      · exfalso
        subst heq
        have : (nodes.mergeSort (topoKeyLe ord)).get ⟨i, hi⟩ =
            (nodes.mergeSort (topoKeyLe ord)).get ⟨i, hj⟩ := rfl
        rw [this] at hpath
        exact hac _ hpath
      · exfalso
        have hpw := (List.pairwise_iff_getElem.mp hsorted) j i hj hi hgt
        have hle := of_decide_eq_true hpw
        simp only [List.get_eq_getElem] at horder
        omega
  · intro ⟨v, hv⟩
    cases hord : topologicalSort net with
    | some ord =>
      exfalso
      exact topologicalSort_some_acyclic hWF.2.2 hord v hv
    | none =>
      unfold sort_node
      rw [hord]

/-- Witness for C7 on the example network with `nodes = [4, 2, 1]`. -/
theorem sort_node_spec_witness :
    ∃ l, sort_node exampleNet [PyNode.int 4, PyNode.int 2, PyNode.int 1] =
        Except.ok l ∧
      l.Perm [PyNode.int 4, PyNode.int 2, PyNode.int 1] ∧
      ∀ (i j : Nat) (hi : i < l.length) (hj : j < l.length),
        EPath exampleNet.edges (l.get ⟨i, hi⟩) (l.get ⟨j, hj⟩) → i < j :=
  (sort_node_spec exampleNet (by decide)
      [PyNode.int 4, PyNode.int 2, PyNode.int 1]).1
    ((topologicalSort_isSome_iff
      (fun e he => (by decide : ∀ e ∈ exampleNet.edges,
        e.1 ∈ exampleNet.nodes ∧ e.2 ∈ exampleNet.nodes) e he)).mp (by decide))
    (by decide)

/-! ### `write_network` (lines 277-310) and the load round trip -/

/-- Python `str(node)`: the token `csv.writer` renders for a node id. -/
def pyStr : PyNode → String
  | PyNode.int i => toString i
  | PyNode.str s => s

/-- A `csv.writer` field under `QUOTE_MINIMAL` with delimiter `' '`: quoted
(with the quote character doubled) when it contains the delimiter, the quote
character, or a carriage return / line feed; written verbatim otherwise. -/
def csvField (s : String) : String :=
  if s.data.any (fun c => c = ' ' || c = '"' || c = '\r' || c = '\n') then
    "\"" ++ String.mk (s.data.foldr
      (fun c acc => if c = '"' then '"' :: '"' :: acc else c :: acc) []) ++ "\""
  else s

/-- Model of `write_network` (lines 277-310): one csv row per node other
than `'0'`, holding the node and its first neighbor — or `"0"` when it has
none — separated by the space delimiter.  Returns the written lines. -/
def write_network (net : Graph) : List String :=
  (net.nodes.filter (fun n => decide (n ≠ PyNode.str "0"))).map
    (fun n =>
      csvField (pyStr n) ++ " " ++ csvField
        (match net.successors n with
         | [] => "0"
         | m :: _ => pyStr m))

theorem stringMk_data (s : String) : String.mk s.data = s := by
  cases s
  rfl

theorem csvField_token {s : String}
    (h : ∀ c ∈ s.data, c.isWhitespace = false ∧ c ≠ '"') : csvField s = s := by
  unfold csvField
  rw [if_neg]
  intro hany
  rw [List.any_eq_true] at hany
  obtain ⟨c, hc, hcq⟩ := hany
  obtain ⟨hws, hq⟩ := h c hc
  simp only [Bool.or_eq_true, decide_eq_true_eq] at hcq
  have hcq2 : c = ' ' ∨ c = '"' ∨ c = '\r' ∨ c = '\n' := by tauto
  rcases hcq2 with rfl | rfl | rfl | rfl
  · exact absurd hws (by decide)
  · exact hq rfl
  · exact absurd hws (by decide)
  · exact absurd hws (by decide)

theorem tokenizeAux_no_ws (cs : List Char) (hcs : ∀ c ∈ cs, c.isWhitespace = false) :
    ∀ (rest : List Char) (acc : List Char),
      tokenizeAux (cs ++ rest) acc = tokenizeAux rest (cs.reverse ++ acc) := by
  induction cs with
  | nil => intro rest acc; simp
  | cons c cs ih =>
    intro rest acc
    have hc : c.isWhitespace = false := hcs c (by simp)
    have hstep : tokenizeAux ((c :: cs) ++ rest) acc =
        tokenizeAux (cs ++ rest) (c :: acc) := by
      rw [List.cons_append]
      conv_lhs => rw [tokenizeAux]
      rw [if_neg (by simp [hc])]
    rw [hstep, ih (fun x hx => hcs x (by simp [hx])) rest (c :: acc)]
    congr 1
    simp

theorem tokenizeAux_nil_acc (acc : List Char) (h : acc.isEmpty = false) :
    tokenizeAux [] acc = [String.mk acc.reverse] := by
  unfold tokenizeAux
  rw [if_neg (by simp [h])]

theorem tokenizeAux_ws_cons (cs : List Char) (acc : List Char)
    (hacc : acc.isEmpty = false) :
    tokenizeAux (' ' :: cs) acc = String.mk acc.reverse :: tokenizeAux cs [] := by
  conv_lhs => rw [tokenizeAux]
  rw [if_pos (by decide)]
  rw [if_neg (by simp [hacc])]

theorem reverse_isEmpty_false {l : List Char} (hl : l ≠ []) :
    (l.reverse).isEmpty = false := by
  cases hrev : l.reverse with
  | nil => exact absurd (List.reverse_eq_nil_iff.mp hrev) hl
  | cons x xs => rfl

theorem tokenize_two_tokens (a b : String)
    (ha : a.data ≠ []) (hb : b.data ≠ [])
    (hwa : ∀ c ∈ a.data, c.isWhitespace = false)
    (hwb : ∀ c ∈ b.data, c.isWhitespace = false) :
    tokenize (a ++ " " ++ b) = [a, b] := by
  unfold tokenize
  have hsp : (" " : String).data = [' '] := by decide
  have hdata : (a ++ " " ++ b).data = a.data ++ (' ' :: b.data) := by
    rw [String.data_append, String.data_append, hsp]
    simp
  rw [hdata, tokenizeAux_no_ws a.data hwa (' ' :: b.data) [], List.append_nil]
  rw [tokenizeAux_ws_cons b.data a.data.reverse (reverse_isEmpty_false ha)]
  have hbrest : tokenizeAux b.data [] = [b] := by
    have h2 := tokenizeAux_no_ws b.data hwb [] []
    rw [List.append_nil, List.append_nil] at h2
    rw [h2, tokenizeAux_nil_acc _ (reverse_isEmpty_false hb),
      List.reverse_reverse, stringMk_data]
  rw [hbrest, List.reverse_reverse, stringMk_data]

theorem addNode_edges (g : Graph) (n : PyNode) : (g.addNode n).edges = g.edges := by
  unfold Graph.addNode
  split <;> rfl

theorem addEdge_edges_mem (g : Graph) (u v : PyNode) (e : Edge) :
    e ∈ (g.addEdge u v).edges ↔ e ∈ g.edges ∨ e = (u, v) := by
  unfold Graph.addEdge
  have hE : ((g.addNode u).addNode v).edges = g.edges := by
    rw [addNode_edges, addNode_edges]
  split
  · rename_i hmem
    rw [hE] at hmem ⊢
    exact ⟨Or.inl, fun h => h.elim id (fun h2 => h2 ▸ hmem)⟩
  · show e ∈ ((g.addNode u).addNode v).edges ++ [(u, v)] ↔ _
    rw [List.mem_append, hE, List.mem_singleton]

theorem addEdgesFrom_edges_mem (g : Graph) (es : List Edge) (e : Edge) :
    e ∈ (g.addEdgesFrom es).edges ↔ e ∈ g.edges ∨ e ∈ es := by
  induction es generalizing g with
  | nil => simp [Graph.addEdgesFrom]
  | cons x xs ih =>
    unfold Graph.addEdgesFrom
    rw [List.foldl_cons]
    have := ih (g.addEdge x.1 x.2)
    unfold Graph.addEdgesFrom at this
    rw [this, addEdge_edges_mem]
    constructor
    · rintro ((h | rfl) | h)
      · exact Or.inl h
      · exact Or.inr (by simp)
      · exact Or.inr (by simp [h])
    · rintro (h | h)
      · exact Or.inl (Or.inl h)
      · rcases List.mem_cons.mp h with rfl | h2
        · exact Or.inl (Or.inr rfl)
        · exact Or.inr h2

theorem successors_singleton_mem {g : Graph} {n m : PyNode}
    (h : g.successors n = [m]) : (n, m) ∈ g.edges := by
  unfold Graph.successors at h
  cases hfil : g.edges.filter (fun e => decide (e.1 = n)) with
  | nil => rw [hfil] at h; cases h
  | cons e0 tl =>
    rw [hfil] at h
    simp only [List.map_cons, List.cons.injEq] at h
    have he0 : e0 ∈ g.edges.filter (fun e => decide (e.1 = n)) := by
      rw [hfil]; simp
    have hmem := List.mem_of_mem_filter he0
    have hfst := List.of_mem_filter he0
    rw [decide_eq_true_eq] at hfst
    have : e0 = (n, m) := by
      cases e0
      simp only [Prod.mk.injEq]
      exact ⟨hfst, h.1⟩
    rwa [this] at hmem

theorem mem_successors_of_edge {g : Graph} {u v : PyNode}
    (h : (u, v) ∈ g.edges) : v ∈ g.successors u := by
  unfold Graph.successors
  rw [List.mem_map]
  refine ⟨(u, v), ?_, rfl⟩
  rw [List.mem_filter]
  exact ⟨h, by simp⟩

theorem mapM_map_ok {α β γ : Type} (r : α → β) (f : β → Except String γ)
    (g : α → γ) :
    ∀ (l : List α), (∀ x ∈ l, f (r x) = Except.ok (g x)) →
      (l.map r).mapM f = Except.ok (l.map g) := by
  intro l
  induction l with
  | nil => intro _; rfl
  | cons a l ih =>
    intro h
    rw [List.map_cons, List.mapM_cons, h a (by simp),
      ih (fun x hx => h x (by simp [hx]))]
    rfl

/-- C5 counterexample: the tree with the single edge `1 → "0"` (integer node
`1`, sink `"0"`) is a valid tree with the sink convention applied, but
writing it and loading the written file yields the edge `("1", "0")` over
string tokens — not the same edge set under node identity, because Python's
loader reads every token back as a string while the tree held the integer
`1`. -/
theorem write_network_roundtrip_counterexample :
    check_network (Graph.empty.addEdge (PyNode.int 1) (PyNode.str "0")) =
      Except.ok true ∧
    (Graph.empty.addEdge (PyNode.int 1) (PyNode.str "0")).successors
      (PyNode.int 1) = [PyNode.str "0"] ∧
    (Graph.empty.addEdge (PyNode.int 1) (PyNode.str "0")).successors
      (PyNode.str "0") = [] ∧
    write_network (Graph.empty.addEdge (PyNode.int 1) (PyNode.str "0")) =
      ["1 0"] ∧
    get_raw_network ["1 0"] =
      Except.ok (Graph.empty.addEdge (PyNode.str "1") (PyNode.str "0")) ∧
    (PyNode.int 1, PyNode.str "0") ∈
      (Graph.empty.addEdge (PyNode.int 1) (PyNode.str "0")).edges ∧
    (PyNode.int 1, PyNode.str "0") ∉
      (Graph.empty.addEdge (PyNode.str "1") (PyNode.str "0")).edges := by
  refine ⟨by decide, by decide, by decide, by decide, by decide, by decide, by decide⟩

/-- C5 amended: for every well-formed tree whose node identifiers are
nonempty whitespace- and quote-free string tokens, with the sink convention
applied (every non-sink node has exactly one outgoing edge; the sink has
none, so every edge starts at a non-sink node), writing with `write_network`
and loading the written lines with `get_raw_network` yields a graph with
exactly the same edge set.  (Integer node ids round-trip only up to their
decimal string rendering; see the counterexample.) -/
theorem write_network_roundtrip (T : Graph) (hWF : T.WF)
    (htok : ∀ n ∈ T.nodes, ∃ s, n = PyNode.str s ∧ s.data ≠ [] ∧
      ∀ c ∈ s.data, c.isWhitespace = false ∧ c ≠ '"')
    (hout : ∀ n ∈ T.nodes, n ≠ PyNode.str "0" → ∃ m, T.successors n = [m])
    (hsink : ∀ e ∈ T.edges, e.1 ≠ PyNode.str "0") :
    ∃ G, get_raw_network (write_network T) = Except.ok G ∧
      ∀ e, (e ∈ G.edges ↔ e ∈ T.edges) := by
  classical
  set nz := T.nodes.filter (fun n => decide (n ≠ PyNode.str "0")) with hnz
  have hnzmem : ∀ n ∈ nz, n ∈ T.nodes ∧ n ≠ PyNode.str "0" := by
    intro n hn
    rw [hnz, List.mem_filter] at hn
    exact ⟨hn.1, by simpa using hn.2⟩
  -- the edge each written row denotes
  set eF : PyNode → Edge := fun n =>
    (n, match T.successors n with
        | [] => PyNode.str "0"
        | m :: _ => m) with heF
  -- each written row parses back to exactly that edge
  have hrow : ∀ n ∈ nz,
      parseTopologyLine (csvField (pyStr n) ++ " " ++ csvField
        (match T.successors n with
         | [] => "0"
         | m :: _ => pyStr m)) = Except.ok (eF n) := by
    intro n hn
    obtain ⟨hnT, hn0⟩ := hnzmem n hn
    obtain ⟨s, rfl, hsne, hstok⟩ := htok n hnT
    obtain ⟨m, hm⟩ := hout _ hnT hn0
    have hmT : m ∈ T.nodes := (hWF.2.2 _ (successors_singleton_mem hm)).2
    obtain ⟨t, hmt, htne, httok⟩ := htok m hmT
    rw [hm]
    simp only [hmt, pyStr]
    rw [csvField_token hstok, csvField_token httok]
    unfold parseTopologyLine
    rw [tokenize_two_tokens s t hsne htne
      (fun c hc => (hstok c hc).1) (fun c hc => (httok c hc).1)]
    rw [heF]
    simp only [hm, hmt]
  have hmapM : (write_network T).mapM parseTopologyLine =
      Except.ok (nz.map eF) := by
    unfold write_network
    rw [← hnz]
    exact mapM_map_ok _ parseTopologyLine eF nz hrow
  refine ⟨Graph.empty.addEdgesFrom (nz.map eF), ?_, ?_⟩
  · unfold get_raw_network
    rw [hmapM]
    rfl
  · intro e
    rw [addEdgesFrom_edges_mem]
    have hempty : e ∈ Graph.empty.edges ↔ False := by
      constructor
      · intro h; cases h
      · intro h; cases h
    rw [hempty, false_or]
    constructor
    · intro h
      rw [List.mem_map] at h
      obtain ⟨n, hn, rfl⟩ := h
      obtain ⟨hnT, hn0⟩ := hnzmem n hn
      obtain ⟨m, hm⟩ := hout _ hnT hn0
      have hedge := successors_singleton_mem hm
      rw [heF]
      simp only [hm]
      exact hedge
    · intro h
      rw [List.mem_map]
      refine ⟨e.1, ?_, ?_⟩
      · rw [hnz, List.mem_filter]
        refine ⟨(hWF.2.2 e h).1, ?_⟩
        simpa using hsink e h
      · obtain ⟨m, hm⟩ := hout e.1 (hWF.2.2 e h).1 (hsink e h)
        have hv : e.2 ∈ T.successors e.1 := by
          have h12 : (e.1, e.2) ∈ T.edges := by
            cases e
            exact h
          exact mem_successors_of_edge h12
        rw [hm] at hv
        have hvm : e.2 = m := by simpa using hv
        rw [heF]
        simp only [hm]
        cases e
        simp only at hvm ⊢
        rw [hvm]

/-- Witness for the amended C5 at the string-token tree `"1" → "2" → "0"`. -/
theorem write_network_roundtrip_witness :
    ∃ G, get_raw_network (write_network (Graph.empty.addEdgesFrom
        [(PyNode.str "1", PyNode.str "2"), (PyNode.str "2", PyNode.str "0")])) =
      Except.ok G ∧
      ∀ e, (e ∈ G.edges ↔ e ∈ (Graph.empty.addEdgesFrom
        [(PyNode.str "1", PyNode.str "2"),
         (PyNode.str "2", PyNode.str "0")]).edges) :=
  write_network_roundtrip _ (by decide)
    (by
      intro n hn
      fin_cases hn
      · exact ⟨"1", rfl, by decide, by decide⟩
      · exact ⟨"2", rfl, by decide, by decide⟩
      · exact ⟨"0", rfl, by decide, by decide⟩)
    (by
      intro n hn
      fin_cases hn
      · intro _; exact ⟨PyNode.str "2", by decide⟩
      · intro _; exact ⟨PyNode.str "0", by decide⟩
      · intro h; exact absurd rfl h)
    (by decide)

/-! ### Infrastructure for the annotation proofs: dictionary lemmas, graph
well-formedness preservation, and node-membership lemmas -/

theorem dictSet_mem {α β : Type} [DecidableEq α] {d : List (α × β)} {k : α}
    {v : β} {e : α × β} (h : e ∈ dictSet d k v) : e = (k, v) ∨ e ∈ d := by
  unfold dictSet at h
  split at h
  · rw [List.mem_map] at h
    obtain ⟨kv, hkv, heq⟩ := h
    by_cases hk : kv.1 = k
    · rw [if_pos hk] at heq
      exact Or.inl heq.symm
    · rw [if_neg hk] at heq
      exact Or.inr (heq ▸ hkv)
  · rcases List.mem_append.mp h with h2 | h2
    · exact Or.inr h2
    · exact Or.inl (List.mem_singleton.mp h2)

theorem find?_append_singleton_false {α : Type} (p : α → Bool) (x : α)
    (hx : p x = false) :
    ∀ (d : List α), (d ++ [x]).find? p = d.find? p := by
  intro d
  induction d with
  | nil => simp [List.find?, hx]
  | cons a d ih =>
    simp only [List.cons_append, List.find?_cons]
    cases hdec : p a with
    | true => rfl
    | false => exact ih

theorem find?_append_singleton_true {α : Type} (p : α → Bool) (x : α)
    (hx : p x = true) (d : List α) (hd : ∀ a ∈ d, p a = false) :
    (d ++ [x]).find? p = some x := by
  induction d with
  | nil => simp [List.find?, hx]
  | cons a d ih =>
    simp only [List.cons_append, List.find?_cons]
    rw [hd a (by simp)]
    exact ih (fun a ha => hd a (by simp [ha]))

theorem dictGet?_dictSet_eq {α β : Type} [DecidableEq α] (d : List (α × β))
    (k : α) (v : β) : dictGet? (dictSet d k v) k = some v := by
  unfold dictGet? dictSet
  split
  · rename_i hmem
    have hfind : (d.map (fun kv => if kv.1 = k then (k, v) else kv)).find?
        (fun kv => decide (kv.1 = k)) = some (k, v) := by
      induction d with
      | nil => simp at hmem
      | cons kv d ih =>
        by_cases hk : kv.1 = k
        · simp only [List.map_cons, if_pos hk, List.find?_cons]
          simp
        · simp only [List.map_cons, if_neg hk, List.find?_cons]
          rw [show (decide (kv.1 = k)) = false by simpa using hk]
          refine ih ?_
          rw [List.map_cons] at hmem
          rcases List.mem_cons.mp hmem with h2 | h2
          · exact absurd h2.symm hk
          · exact h2
    rw [hfind]
    rfl
  · rename_i hmem
    have hall : ∀ kv ∈ d, (fun kv : α × β => decide (kv.1 = k)) kv = false := by
      intro kv hkv
      by_contra hc
      rw [Bool.not_eq_false, decide_eq_true_eq] at hc
      exact hmem (by rw [List.mem_map]; exact ⟨kv, hkv, hc⟩)
    rw [find?_append_singleton_true _ (k, v) (by simp) d hall]
    rfl

theorem dictGet?_dictSet_ne {α β : Type} [DecidableEq α] (d : List (α × β))
    (k k' : α) (v : β) (h : k' ≠ k) :
    dictGet? (dictSet d k v) k' = dictGet? d k' := by
  unfold dictGet? dictSet
  split
  · rename_i hmem
    clear hmem
    have hfind : (d.map (fun kv => if kv.1 = k then (k, v) else kv)).find?
        (fun kv => decide (kv.1 = k')) = d.find? (fun kv => decide (kv.1 = k')) := by
      induction d with
      | nil => rfl
      | cons kv d ih =>
        by_cases hk : kv.1 = k
        · simp only [List.map_cons, if_pos hk, List.find?_cons]
          rw [show (decide ((k, v).1 = k')) = false by simpa using (Ne.symm h)]
          rw [show (decide (kv.1 = k')) = false by
            rw [hk]; simpa using (Ne.symm h)]
          exact ih
        · simp only [List.map_cons, if_neg hk, List.find?_cons]
          cases hdec : decide (kv.1 = k') with
          | true => rfl
          | false => exact ih
    rw [hfind]
  · rw [find?_append_singleton_false _ (k, v)
      (by simpa using (Ne.symm h))]

theorem dictPop_subset {α β : Type} [DecidableEq α] {d : List (α × β)} {k : α}
    {e : α × β} (h : e ∈ dictPop d k) : e ∈ d :=
  List.mem_of_mem_filter h

theorem dictPop_mem {α β : Type} [DecidableEq α] {d : List (α × β)} {k : α}
    {e : α × β} (he : e ∈ d) (hne : e.1 ≠ k) : e ∈ dictPop d k := by
  unfold dictPop
  rw [List.mem_filter]
  exact ⟨he, by simpa using hne⟩

theorem unique_key_value {α β : Type} [DecidableEq α] {d : List (α × β)}
    (hnd : (d.map Prod.fst).Nodup) {a : α} {b c : β}
    (h1 : (a, b) ∈ d) (h2 : (a, c) ∈ d) : b = c := by
  induction d with
  | nil => cases h1
  | cons kv d ih =>
    rw [List.map_cons] at hnd
    rcases List.mem_cons.mp h1 with rfl | h1t
    · rcases List.mem_cons.mp h2 with heq | h2t
      · cases heq; rfl
      · exfalso
        exact (List.nodup_cons.mp hnd).1
          (by rw [List.mem_map]; exact ⟨(a, c), h2t, rfl⟩)
    · rcases List.mem_cons.mp h2 with rfl | h2t
      · exfalso
        exact (List.nodup_cons.mp hnd).1
          (by rw [List.mem_map]; exact ⟨(a, b), h1t, rfl⟩)
      · exact ih (List.nodup_cons.mp hnd).2 h1t h2t

theorem dictGet?_mem {α β : Type} [DecidableEq α] {d : List (α × β)} {k : α}
    {v : β} (h : dictGet? d k = some v) : (k, v) ∈ d := by
  unfold dictGet? at h
  cases hfind : d.find? (fun kv => decide (kv.1 = k)) with
  | none => rw [hfind] at h; cases h
  | some kv =>
    rw [hfind] at h
    have hmem := List.mem_of_find?_eq_some hfind
    have hkey := List.find?_some hfind
    rw [decide_eq_true_eq] at hkey
    simp only [Option.map_some'] at h
    injection h with h
    have : kv = (k, v) := by
      cases kv
      simp only at hkey h
      rw [hkey, h]
    rwa [this] at hmem

theorem mem_subgraph_nodes {g : Graph} {ns : List PyNode} {x : PyNode} :
    x ∈ (g.subgraph ns).nodes ↔ x ∈ g.nodes ∧ x ∈ ns := by
  unfold Graph.subgraph
  simp [List.mem_filter]

theorem subgraph_WF {g : Graph} (h : g.WF) (ns : List PyNode) :
    (g.subgraph ns).WF := by
  obtain ⟨hn, he, hval⟩ := h
  refine ⟨hn.filter _, he.filter _, ?_⟩
  intro e hmem
  have he2 := List.mem_of_mem_filter hmem
  have hcond := List.of_mem_filter hmem
  simp only [Bool.and_eq_true, decide_eq_true_eq] at hcond
  constructor
  · exact mem_subgraph_nodes.mpr ⟨(hval e he2).1, hcond.1⟩
  · exact mem_subgraph_nodes.mpr ⟨(hval e he2).2, hcond.2⟩

theorem mem_removeNodes_nodes {g : Graph} {ns : List PyNode} {x : PyNode} :
    x ∈ (g.removeNodes ns).nodes ↔ x ∈ g.nodes ∧ x ∉ ns := by
  unfold Graph.removeNodes
  simp [List.mem_filter]

theorem removeNodes_WF {g : Graph} (h : g.WF) (ns : List PyNode) :
    (g.removeNodes ns).WF := by
  obtain ⟨hn, he, hval⟩ := h
  refine ⟨hn.filter _, he.filter _, ?_⟩
  intro e hmem
  have he2 := List.mem_of_mem_filter hmem
  have hcond := List.of_mem_filter hmem
  simp only [Bool.and_eq_true, decide_eq_true_eq] at hcond
  constructor
  · exact mem_removeNodes_nodes.mpr ⟨(hval e he2).1, hcond.1⟩
  · exact mem_removeNodes_nodes.mpr ⟨(hval e he2).2, hcond.2⟩

theorem filter_to_calibrate_WF {nodes : List PyNode} :
    ∀ {net : Graph}, net.WF → ∀ {outlet : PyNode},
      (filter_to_calibrate net nodes outlet).WF := by
  unfold filter_to_calibrate
  induction nodes with
  | nil => intro net h outlet; exact h
  | cons a l ih =>
    intro net h outlet
    rw [List.foldl_cons]
    split
    · exact ih (removeNodes_WF h _)
    · exact ih h

theorem addNode_nodes_mem (g : Graph) (n m : PyNode) :
    m ∈ (g.addNode n).nodes ↔ m ∈ g.nodes ∨ m = n := by
  unfold Graph.addNode
  split
  · rename_i hmem
    exact ⟨Or.inl, fun h => h.elim id (fun h2 => h2 ▸ hmem)⟩
  · simp [List.mem_append]

theorem addNode_WF {g : Graph} (h : g.WF) (n : PyNode) : (g.addNode n).WF := by
  obtain ⟨hn, he, hval⟩ := h
  unfold Graph.addNode
  split
  · exact ⟨hn, he, hval⟩
  · rename_i hmem
    refine ⟨?_, he, ?_⟩
    · simp [List.nodup_append, hn, hmem]
    · intro e hee
      exact ⟨List.mem_append.mpr (Or.inl (hval e hee).1),
        List.mem_append.mpr (Or.inl (hval e hee).2)⟩

theorem addEdge_nodes_mem (g : Graph) (u v m : PyNode) :
    m ∈ (g.addEdge u v).nodes ↔ m ∈ g.nodes ∨ m = u ∨ m = v := by
  have hmm : ∀ x, x ∈ ((g.addNode u).addNode v).nodes ↔
      x ∈ g.nodes ∨ x = u ∨ x = v := by
    intro x
    rw [addNode_nodes_mem, addNode_nodes_mem]
    tauto
  unfold Graph.addEdge
  split
  · exact hmm m
  · show m ∈ ((g.addNode u).addNode v).nodes ↔ _
    exact hmm m

theorem addEdge_WF {g : Graph} (h : g.WF) (u v : PyNode) :
    (g.addEdge u v).WF := by
  have hX : ((g.addNode u).addNode v).WF := addNode_WF (addNode_WF h u) v
  have hu : u ∈ ((g.addNode u).addNode v).nodes := by
    rw [addNode_nodes_mem, addNode_nodes_mem]
    tauto
  have hvv : v ∈ ((g.addNode u).addNode v).nodes := by
    rw [addNode_nodes_mem]
    tauto
  unfold Graph.addEdge
  split
  · exact hX
  · rename_i hne
    obtain ⟨hn, he, hval⟩ := hX
    refine ⟨hn, by simp [List.nodup_append, he, hne], ?_⟩
    intro e hee
    rcases List.mem_append.mp hee with h2 | h2
    · exact ⟨(hval e h2).1, (hval e h2).2⟩
    · rw [List.mem_singleton] at h2
      subst h2
      exact ⟨hu, hvv⟩

theorem bfsRevAux_sublist (g : Graph) :
    ∀ (fuel : Nat) (disc q : List PyNode), disc.Sublist (bfsRevAux g fuel disc q) := by
  intro fuel
  induction fuel with
  | zero => intro disc q; exact List.Sublist.refl disc
  | succ n ih =>
    intro disc q
    cases q with
    | nil => exact List.Sublist.refl disc
    | cons cur queue =>
      unfold bfsRevAux
      exact (List.sublist_append_left disc _).trans (ih _ _)

theorem source_mem_bfsRevNodes (g : Graph) (s : PyNode) :
    s ∈ bfsRevNodes g s := by
  unfold bfsRevNodes
  exact (bfsRevAux_sublist g _ [s] [s]).subset (by simp)

theorem except_error_ne_ok {ε α : Type} (e : ε) (a : α) :
    (Except.error e : Except ε α) ≠ Except.ok a := by
  intro h
  cases h

theorem mem_predecessors_edge {g : Graph} {p v : PyNode}
    (h : p ∈ g.predecessors v) : (p, v) ∈ g.edges := by
  unfold Graph.predecessors at h
  rw [List.mem_map] at h
  obtain ⟨e, he, heq⟩ := h
  have hmem := List.mem_of_mem_filter he
  have hsnd := List.of_mem_filter he
  rw [decide_eq_true_eq] at hsnd
  cases e
  simp only at heq hsnd
  rw [← heq, ← hsnd]
  exact hmem

theorem annotStep_ok_inv {gr : Graph} {gaugeVals : List PyNode}
    {revD : List (PyNode × String)} {outlet : PyNode}
    {maps : List (PyNode × Option String) × List (PyNode × String)}
    {a : PyNode}
    {mid : List (PyNode × Option String) × List (PyNode × String)}
    (h : annotStep gr gaugeVals revD outlet maps a = Except.ok mid) :
    ∃ x y, mid = (dictSet maps.1 a x, dictSet maps.2 a y) := by
  unfold annotStep at h
  split at h
  · cases hget : dictGet? revD a with
    | none =>
      rw [hget] at h
      exact absurd h (except_error_ne_ok _ _)
    | some gk =>
      rw [hget] at h
      have h2 : (Except.ok (dictSet maps.1 a (some gk),
          dictSet maps.2 a (if a = outlet then "True" else "False")) :
          Except String _) = Except.ok mid := h
      injection h2 with h2
      exact ⟨some gk, (if a = outlet then "True" else "False"), h2.symm⟩
  · cases hpred : gr.predecessors a with
    | nil =>
      rw [hpred] at h
      have h2 : (Except.ok (dictSet maps.1 a none, dictSet maps.2 a "False") :
          Except String _) = Except.ok mid := h
      injection h2 with h2
      exact ⟨none, "False", h2.symm⟩
    | cons p ps =>
      rw [hpred] at h
      have h2 : (Except.ok (dictSet maps.1 a ((dictGet? maps.1 p).getD none),
          dictSet maps.2 a ((dictGet? maps.2 p).getD "KeyError")) :
          Except String _) = Except.ok mid := h
      injection h2 with h2
      exact ⟨_, _, h2.symm⟩

theorem annotFold_frame {gr : Graph} {gaugeVals : List PyNode}
    {revD : List (PyNode × String)} {outlet : PyNode} :
    ∀ (l : List PyNode) (maps M : List (PyNode × Option String) × List (PyNode × String)),
      l.foldlM (annotStep gr gaugeVals revD outlet) maps = Except.ok M →
      ∀ v, v ∉ l →
        dictGet? M.1 v = dictGet? maps.1 v ∧
        dictGet? M.2 v = dictGet? maps.2 v := by
  intro l
  induction l with
  | nil =>
    intro maps M h v _
    have h2 : (Except.ok maps : Except String _) = Except.ok M := h
    injection h2 with h2
    rw [← h2]
    exact ⟨rfl, rfl⟩
  | cons a l ih =>
    intro maps M h v hv
    rw [List.foldlM_cons] at h
    cases hstep : annotStep gr gaugeVals revD outlet maps a with
    | error e =>
      rw [hstep] at h
      exact absurd h (except_error_ne_ok _ _)
    | ok mid =>
      rw [hstep] at h
      have h2 : l.foldlM (annotStep gr gaugeVals revD outlet) mid = Except.ok M := h
      have hvl : v ∉ l := fun hc => hv (by simp [hc])
      have hva : v ≠ a := fun hc => hv (by simp [hc])
      obtain ⟨g1, g2⟩ := ih mid M h2 v hvl
      obtain ⟨x, y, rfl⟩ := annotStep_ok_inv hstep
      exact ⟨g1.trans (dictGet?_dictSet_ne _ _ _ _ hva),
        g2.trans (dictGet?_dictSet_ne _ _ _ _ hva)⟩

theorem foldlM_append_ok {σ α : Type} (f : σ → α → Except String σ) :
    ∀ (l₁ l₂ : List α) (s0 s2 : σ),
      (l₁ ++ l₂).foldlM f s0 = Except.ok s2 →
      ∃ s1, l₁.foldlM f s0 = Except.ok s1 ∧ l₂.foldlM f s1 = Except.ok s2 := by
  intro l₁
  induction l₁ with
  | nil =>
    intro l₂ s0 s2 h
    exact ⟨s0, rfl, h⟩
  | cons a l ih =>
    intro l₂ s0 s2 h
    rw [List.cons_append, List.foldlM_cons] at h
    cases hstep : f s0 a with
    | error e =>
      rw [hstep] at h
      exact absurd h (except_error_ne_ok _ _)
    | ok mid =>
      rw [hstep] at h
      obtain ⟨s1, h1, h2⟩ := ih l₂ mid s2 h
      refine ⟨s1, ?_, h2⟩
      rw [List.foldlM_cons, hstep]
      exact h1

theorem foldlM_cons_ok {σ α : Type} (f : σ → α → Except String σ)
    {a : α} {l : List α} {s0 s2 : σ}
    (h : (a :: l).foldlM f s0 = Except.ok s2) :
    ∃ s1, f s0 a = Except.ok s1 ∧ l.foldlM f s1 = Except.ok s2 := by
  rw [List.foldlM_cons] at h
  cases hstep : f s0 a with
  | error e =>
    rw [hstep] at h
    exact absurd h (except_error_ne_ok _ _)
  | ok mid =>
    rw [hstep] at h
    exact ⟨mid, rfl, h⟩

/-- Core invariant of the attribute-propagation loop (lines 220-235): when
the fold over a topological order of a well-formed graph succeeds, the
outlet — if it is a retained gauge node — ends with `calibrate = "True"`,
and every other node with a directed path to the outlet ends with
`calibrate = "False"`. -/
theorem annotFold_calib {gr : Graph} {gaugeVals : List PyNode}
    {revD : List (PyNode × String)} {outlet : PyNode} {ord : List PyNode}
    {maps0 M : List (PyNode × Option String) × List (PyNode × String)}
    (hWF : gr.WF)
    (hord : topologicalSort gr = some ord)
    (hfold : ord.foldlM (annotStep gr gaugeVals revD outlet) maps0 =
      Except.ok M) :
    (outlet ∈ gr.nodes → outlet ∈ gaugeVals →
      dictGet? M.2 outlet = some "True") ∧
    (∀ v ∈ gr.nodes, v ≠ outlet → EPath gr.edges v outlet →
      dictGet? M.2 v = some "False") := by
  have hperm : ord.Perm gr.nodes := topoAux_perm hord
  have hnodup : ord.Nodup := hperm.nodup_iff.mpr hWF.1
  have hacyc : gr.Acyclic := topologicalSort_some_acyclic hWF.2.2 hord
  constructor
  · intro hmem hgv
    have hvord : outlet ∈ ord := hperm.mem_iff.mpr hmem
    obtain ⟨l₁, l₂, hsplit⟩ := List.append_of_mem hvord
    have hfold' := hfold
    rw [hsplit] at hfold'
    obtain ⟨mid, hfold1, hfold2⟩ :=
      foldlM_append_ok _ l₁ (outlet :: l₂) maps0 M hfold'
    obtain ⟨mid2, hstepv, hfold3⟩ := foldlM_cons_ok _ hfold2
    have hnd2 := hnodup
    rw [hsplit] at hnd2
    have hnotl2 : outlet ∉ l₂ :=
      (List.nodup_cons.mp (List.Nodup.of_append_right hnd2)).1
    have hframe := annotFold_frame l₂ mid2 M hfold3 outlet hnotl2
    unfold annotStep at hstepv
    rw [if_pos hgv] at hstepv
    cases hget : dictGet? revD outlet with
    | none =>
      rw [hget] at hstepv
      exact absurd hstepv (except_error_ne_ok _ _)
    | some gk =>
      rw [hget] at hstepv
      have h2 : (Except.ok (dictSet mid.1 outlet (some gk),
          dictSet mid.2 outlet (if outlet = outlet then "True" else "False")) :
          Except String _) = Except.ok mid2 := hstepv
      injection h2 with h2
      rw [hframe.2, ← h2]
      show dictGet? (dictSet mid.2 outlet
        (if outlet = outlet then "True" else "False")) outlet = some "True"
      rw [if_pos rfl, dictGet?_dictSet_eq]
  · have main : ∀ n, ∀ v, v ∈ gr.nodes → ord.indexOf v = n → v ≠ outlet →
        EPath gr.edges v outlet → dictGet? M.2 v = some "False" := by
      intro n
      induction n using Nat.strong_induction_on with
      | _ n ih =>
        intro v hv hidx hneq hpath
        have hvord : v ∈ ord := hperm.mem_iff.mpr hv
        obtain ⟨l₁, l₂, hsplit⟩ := List.append_of_mem hvord
        have hnd2 := hnodup
        rw [hsplit] at hnd2
        have hvl₁ : v ∉ l₁ := by
          intro hc
          exact (List.nodup_append.mp hnd2).2.2 hc (by simp)
        have hidxv : ord.indexOf v = l₁.length := by
          rw [hsplit, List.indexOf_append_of_not_mem hvl₁,
            List.indexOf_cons_self]
          omega
        have hfold' := hfold
        rw [hsplit] at hfold'
        obtain ⟨mid, hfold1, hfold2⟩ :=
          foldlM_append_ok _ l₁ (v :: l₂) maps0 M hfold'
        obtain ⟨mid2, hstepv, hfold3⟩ := foldlM_cons_ok _ hfold2
        have hvnotl2 : v ∉ l₂ :=
          (List.nodup_cons.mp (List.Nodup.of_append_right hnd2)).1
        have hframe := annotFold_frame l₂ mid2 M hfold3 v hvnotl2
        rw [hframe.2]
        by_cases hvg : v ∈ gaugeVals
        · unfold annotStep at hstepv
          rw [if_pos hvg] at hstepv
          cases hget : dictGet? revD v with
          | none =>
            rw [hget] at hstepv
            exact absurd hstepv (except_error_ne_ok _ _)
          | some gk =>
            rw [hget] at hstepv
            have h2 : (Except.ok (dictSet mid.1 v (some gk),
                dictSet mid.2 v (if v = outlet then "True" else "False")) :
                Except String _) = Except.ok mid2 := hstepv
            injection h2 with h2
            rw [← h2]
            show dictGet? (dictSet mid.2 v
              (if v = outlet then "True" else "False")) v = some "False"
            rw [if_neg hneq, dictGet?_dictSet_eq]
        · unfold annotStep at hstepv
          rw [if_neg hvg] at hstepv
          cases hpred : gr.predecessors v with
          | nil =>
            rw [hpred] at hstepv
            have h2 : (Except.ok (dictSet mid.1 v none,
                dictSet mid.2 v "False") :
                Except String _) = Except.ok mid2 := hstepv
            injection h2 with h2
            rw [← h2]
            show dictGet? (dictSet mid.2 v "False") v = some "False"
            rw [dictGet?_dictSet_eq]
          | cons p ps =>
            rw [hpred] at hstepv
            have h2 : (Except.ok
                (dictSet mid.1 v ((dictGet? mid.1 p).getD none),
                 dictSet mid.2 v ((dictGet? mid.2 p).getD "KeyError")) :
                Except String _) = Except.ok mid2 := hstepv
            injection h2 with h2
            rw [← h2]
            show dictGet? (dictSet mid.2 v
              ((dictGet? mid.2 p).getD "KeyError")) v = some "False"
            rw [dictGet?_dictSet_eq]
            have hpmem : p ∈ gr.predecessors v := by rw [hpred]; simp
            have hedge : (p, v) ∈ gr.edges := mem_predecessors_edge hpmem
            have hpnodes : p ∈ gr.nodes := (hWF.2.2 _ hedge).1
            have hpord : p ∈ ord := hperm.mem_iff.mpr hpnodes
            have hppath : EPath gr.edges p outlet := EPath.cons hedge hpath
            have hpneq : p ≠ outlet := by
              intro hc
              subst hc
              exact hacyc p (EPath.cons hedge hpath)
            have hpv : p ≠ v := by
              intro hc
              rw [hc] at hedge
              exact hacyc v (EPath.single hedge)
            have hidxlt : ord.indexOf p < ord.indexOf v :=
              topo_edge_order hord hedge hpord hvord
            have hM : dictGet? M.2 p = some "False" :=
              ih (ord.indexOf p) (by rw [← hidx]; exact hidxlt) p hpnodes
                rfl hpneq hppath
            have hpnotvl2 : p ∉ v :: l₂ := by
              intro hc
              rcases List.mem_cons.mp hc with rfl | hc2
              · exact hpv rfl
              · have hpl₁ : p ∉ l₁ := by
                  intro hc3
                  exact (List.nodup_append.mp hnd2).2.2 hc3 (by simp [hc2])
                have hform : ord.indexOf p =
                    l₁.length + (v :: l₂).indexOf p := by
                  rw [hsplit, List.indexOf_append_of_not_mem hpl₁]
                rw [hidxv] at hidxlt
                omega
            have hframe2 := annotFold_frame (v :: l₂) mid M hfold2 p hpnotvl2
            rw [hframe2.2] at hM
            rw [hM]
            rfl
    intro v hv hneq hpath
    exact main (ord.indexOf v) v hv rfl hneq hpath

/-- A directed path, given as its list of visited nodes, ending at `t`. -/
def IsPathTo (g : Graph) : List PyNode → PyNode → Prop
  | [], _ => False
  | [v], t => v = t ∧ v ∈ g.nodes
  | v :: w :: rest, t => (v, w) ∈ g.edges ∧ IsPathTo g (w :: rest) t

theorem isPathTo_head_epath {g : Graph} :
    ∀ {v w : PyNode} {rest : List PyNode} {t : PyNode},
      IsPathTo g (v :: w :: rest) t → EPath g.edges v t := by
  intro v w rest
  induction rest generalizing v w with
  | nil =>
    intro t h
    obtain ⟨he, hw, -⟩ := h
    exact hw ▸ EPath.single he
  | cons x xs ih =>
    intro t h
    obtain ⟨he, htail⟩ := h
    exact EPath.cons he (ih htail)

/-- Counting lemma: if the target carries `"True"` and every other node
that can reach the target carries `"False"`, then any path ending at the
target holds exactly one `"True"` node. -/
theorem isPathTo_countP (g : Graph) (hWF : g.WF)
    (A : List (PyNode × String)) (t : PyNode)
    (hacyc : g.Acyclic)
    (htrue : dictGet? A t = some "True")
    (hfalse : ∀ v ∈ g.nodes, v ≠ t → EPath g.edges v t →
      dictGet? A v = some "False") :
    ∀ p, IsPathTo g p t →
      p.countP (fun v => decide (dictGet? A v = some "True")) = 1 := by
  intro p
  induction p with
  | nil => intro h; cases h
  | cons v rest ih =>
    intro h
    cases rest with
    | nil =>
      obtain ⟨rfl, hmem⟩ := h
      simp [List.countP_cons, htrue]
    | cons w rest2 =>
      obtain ⟨he, htail⟩ := h
      have hvt : EPath g.edges v t := isPathTo_head_epath ⟨he, htail⟩
      have hvne : v ≠ t := by
        intro hc
        subst hc
        exact hacyc v hvt
      have hvnodes : v ∈ g.nodes := (hWF.2.2 _ he).1
      have hvfalse := hfalse v hvnodes hvne hvt
      rw [List.countP_cons, ih htail]
      simp [hvfalse]

theorem buildRev_mem {gauge : List (String × PyNode)} :
    ∀ {e : PyNode × String}, e ∈ buildRev gauge → (e.2, e.1) ∈ gauge := by
  suffices h : ∀ (l : List (String × PyNode))
      (acc : List (PyNode × String)),
      (∀ e ∈ acc, (e.2, e.1) ∈ gauge) → (∀ kv ∈ l, kv ∈ gauge) →
      ∀ e ∈ l.foldl (fun d kv => dictSet d kv.2 kv.1) acc,
        (e.2, e.1) ∈ gauge by
    intro e he
    exact h gauge [] (by intro x hx; cases hx) (fun kv hkv => hkv) e he
  intro l
  induction l with
  | nil =>
    intro acc hacc _ e he
    exact hacc e he
  | cons kv l ih =>
    intro acc hacc hl e he
    rw [List.foldl_cons] at he
    refine ih (dictSet acc kv.2 kv.1) ?_ (fun x hx => hl x (by simp [hx])) e he
    intro x hx
    rcases dictSet_mem hx with rfl | hx2
    · simpa using hl kv (by simp)
    · exact hacc x hx2

/-- The pruning loop never drops a gauge entry whose node is present in the
upstream subnetwork, provided the gauge map has unique keys (it models a
Python dict). -/
theorem prune_keeps {gauge : List (String × PyNode)}
    (hkeys : (gauge.map Prod.fst).Nodup)
    {upNodes : List PyNode} {gid : String} {outlet : PyNode}
    (hpair : (gid, outlet) ∈ gauge) (houtmem : outlet ∈ upNodes) :
    ∀ (keys : List PyNode), (∀ k ∈ keys, k ∉ upNodes) →
    ∀ (rd : List (PyNode × String)) (ga : List (String × PyNode)),
      (∀ e ∈ rd, (e.2, e.1) ∈ gauge) → (gid, outlet) ∈ ga →
      (gid, outlet) ∈ (keys.foldl pruneStep (rd, ga)).2 := by
  intro keys
  induction keys with
  | nil =>
    intro _ rd ga _ hga
    exact hga
  | cons k ks ih =>
    intro hkmem rd ga hrd hga
    rw [List.foldl_cons]
    unfold pruneStep
    cases hget : dictGet? rd k with
    | none =>
      exact ih (fun x hx => hkmem x (by simp [hx])) rd ga hrd hga
    | some value =>
      refine ih (fun x hx => hkmem x (by simp [hx])) _ _
        (fun e he => hrd e (dictPop_subset he)) ?_
      have hpairk : (value, k) ∈ gauge := hrd _ (dictGet?_mem hget)
      have hvne : gid ≠ value := by
        intro hc
        subst hc
        have := unique_key_value hkeys hpair hpairk
        subst this
        exact hkmem outlet (by simp) houtmem
      exact dictPop_mem hga (by simpa using hvne)

/-- C6: whenever `get_subgraph` with `is_calibration = true` returns an
annotated graph — for a well-formed network and a gauge dictionary with
unique keys — the outlet node carries `calibrate = "True"`, and along every
directed path of the returned graph ending at the outlet exactly one node
carries `calibrate = "True"` (the outlet itself; every strict ancestor
carries `"False"`). -/
theorem get_subgraph_calibrate_path (net : Graph) (hWF : net.WF)
    (gauge : List (String × PyNode)) (gauge_id : String)
    (hkeys : (gauge.map Prod.fst).Nodup)
    (outlet : PyNode) (hlook : dictGet? gauge gauge_id = some outlet)
    (r : AGraph) (gfin : List (String × PyNode))
    (h : get_subgraph net gauge gauge_id true = Except.ok (r, gfin)) :
    dictGet? r.calibAttr outlet = some "True" ∧
    ∀ p : List PyNode, IsPathTo r.graph p outlet →
      p.countP (fun v => decide (dictGet? r.calibAttr v = some "True")) = 1 := by
  unfold get_subgraph at h
  rw [hlook] at h
  have h1 : (if outlet ∉ net.nodes then
      (Except.error "NetworkXError: the node is not in the graph." :
        Except String (AGraph × List (String × PyNode)))
    else
      match topologicalSort (calibGraph net gauge outlet true) with
      | none => Except.error "NetworkXUnfeasible: graph contains a cycle"
      | some ord =>
        match ord.foldlM
            (annotStep (calibGraph net gauge outlet true)
              ((prunedMaps net gauge outlet).2.map Prod.snd)
              (prunedMaps net gauge outlet).1 outlet)
            ((calibGraph net gauge outlet true).nodes.map
               (fun n => (n, (some gauge_id : Option String))),
             (calibGraph net gauge outlet true).nodes.map
               (fun n => (n, "True"))) with
        | Except.error e => Except.error e
        | Except.ok maps =>
          Except.ok
            ({ graph := calibGraph net gauge outlet true,
               gaugeAttr := maps.1, calibAttr := maps.2 },
             (prunedMaps net gauge outlet).2)) = Except.ok (r, gfin) := h
  clear h
  by_cases hmem : outlet ∈ net.nodes
  case neg =>
    rw [if_pos hmem] at h1
    exact absurd h1 (except_error_ne_ok _ _)
  case pos =>
    rw [if_neg (fun hc => hc hmem)] at h1
    cases hts : topologicalSort (calibGraph net gauge outlet true) with
    | none =>
      rw [hts] at h1
      exact absurd h1 (except_error_ne_ok _ _)
    | some ord =>
      rw [hts] at h1
      have h1b : (match ord.foldlM
            (annotStep (calibGraph net gauge outlet true)
              ((prunedMaps net gauge outlet).2.map Prod.snd)
              (prunedMaps net gauge outlet).1 outlet)
            ((calibGraph net gauge outlet true).nodes.map
               (fun n => (n, (some gauge_id : Option String))),
             (calibGraph net gauge outlet true).nodes.map
               (fun n => (n, "True"))) with
        | Except.error e =>
          (Except.error e : Except String (AGraph × List (String × PyNode)))
        | Except.ok maps =>
          Except.ok
            ({ graph := calibGraph net gauge outlet true,
               gaugeAttr := maps.1, calibAttr := maps.2 },
             (prunedMaps net gauge outlet).2)) = Except.ok (r, gfin) := h1
      clear h1
      cases hfold : ord.foldlM
          (annotStep (calibGraph net gauge outlet true)
            ((prunedMaps net gauge outlet).2.map Prod.snd)
            (prunedMaps net gauge outlet).1 outlet)
          ((calibGraph net gauge outlet true).nodes.map
             (fun n => (n, (some gauge_id : Option String))),
           (calibGraph net gauge outlet true).nodes.map
             (fun n => (n, "True"))) with
      | error e =>
        rw [hfold] at h1b
        exact absurd h1b (except_error_ne_ok _ _)
      | ok maps =>
        rw [hfold] at h1b
        have h2 : (Except.ok
            ({ graph := calibGraph net gauge outlet true,
               gaugeAttr := maps.1, calibAttr := maps.2 },
             (prunedMaps net gauge outlet).2) :
            Except String (AGraph × List (String × PyNode))) =
            Except.ok (r, gfin) := h1b
        injection h2 with h2
        rw [Prod.mk.injEq] at h2
        obtain ⟨hr, hg⟩ := h2
        subst hr
        have hGWF : (calibGraph net gauge outlet true).WF := by
          unfold calibGraph
          rw [if_pos rfl]
          exact addEdge_WF
            (filter_to_calibrate_WF (subgraph_WF hWF _)) _ _
        have houtG : outlet ∈ (calibGraph net gauge outlet true).nodes := by
          unfold calibGraph
          rw [addEdge_nodes_mem]
          exact Or.inr (Or.inl rfl)
        have houtup : outlet ∈ (get_up_streem_network net outlet).nodes :=
          mem_subgraph_nodes.mpr ⟨hmem, source_mem_bfsRevNodes net outlet⟩
        have hpairfin : (gauge_id, outlet) ∈ (prunedMaps net gauge outlet).2 := by
          unfold prunedMaps
          refine prune_keeps hkeys (dictGet?_mem hlook) houtup _ ?_ _ _
            (fun e he => buildRev_mem he) (dictGet?_mem hlook)
          intro k hk
          unfold keysToRemove at hk
          rw [List.mem_map] at hk
          obtain ⟨kv, hkv, rfl⟩ := hk
          have hcond := List.of_mem_filter hkv
          rw [decide_eq_true_eq] at hcond
          exact hcond
        have houtvals : outlet ∈ (prunedMaps net gauge outlet).2.map Prod.snd := by
          rw [List.mem_map]
          exact ⟨(gauge_id, outlet), hpairfin, rfl⟩
        have hmain := annotFold_calib hGWF hts hfold
        have htrueO : dictGet? maps.2 outlet = some "True" :=
          hmain.1 houtG houtvals
        have hacycG : (calibGraph net gauge outlet true).Acyclic :=
          topologicalSort_some_acyclic hGWF.2.2 hts
        constructor
        · exact htrueO
        · intro p hp
          exact isPathTo_countP _ hGWF maps.2 outlet hacycG htrueO hmain.2 p hp

/-- Witness for C6 on the example network with gauge `"g2"` (outlet `2`). -/
theorem get_subgraph_calibrate_path_witness :
    ∃ r gfin,
      get_subgraph exampleNet exampleGauge "g2" true = Except.ok (r, gfin) ∧
      dictGet? r.calibAttr (PyNode.int 2) = some "True" ∧
      ∀ p, IsPathTo r.graph p (PyNode.int 2) →
        p.countP (fun v => decide (dictGet? r.calibAttr v = some "True")) = 1 := by
  cases hres : get_subgraph exampleNet exampleGauge "g2" true with
  | error e =>
    exfalso
    have hok : (get_subgraph exampleNet exampleGauge "g2" true).isOk = true := by
      decide
    rw [hres] at hok
    exact absurd (show (false : Bool) = true from hok) (by decide)
  | ok rg =>
    have hmain := get_subgraph_calibrate_path exampleNet (by decide) exampleGauge
      "g2" (by decide) (PyNode.int 2) (by decide) rg.1 rg.2 (hres.trans rfl)
    exact ⟨rg.1, rg.2, rfl, hmain.1, hmain.2⟩

/-! ### Reference-store model for the in-place / fresh-copy contracts -/

/-- A store of graph objects: Python object identity for a `DiGraph` is its
position (reference) in the store.  Operations that build a new graph
allocate a fresh slot; operations that mutate write back through the
argument reference. -/
structure Store where
  graphs : List Graph
deriving Repr

/-- Dereference. -/
def Store.get (σ : Store) (r : Nat) : Graph := σ.graphs.getD r Graph.empty

/-- Write through a reference. -/
def Store.set (σ : Store) (r : Nat) (g : Graph) : Store :=
  ⟨σ.graphs.set r g⟩

/-- Allocate a new object, returning its fresh reference. -/
def Store.alloc (σ : Store) (g : Graph) : Store × Nat :=
  (⟨σ.graphs ++ [g]⟩, σ.graphs.length)

/-- `get_up_streem_network` against the store: the argument object is only
read (`bfs_tree`, `subgraph`), and `nx.DiGraph(net_up)` allocates a fresh
copy, whose reference is returned. -/
def get_up_streem_networkS (σ : Store) (r : Nat) (node : PyNode) :
    Store × Nat :=
  σ.alloc (get_up_streem_network (σ.get r) node)

/-- `filter_to_calibrate` against the store: each `remove_nodes_from` writes
through the argument reference, and `return net` returns that same
reference. -/
def filter_to_calibrateS (σ : Store) (r : Nat) (nodes : List PyNode)
    (outlet : PyNode) : Store × Nat :=
  (Store.set σ r (filter_to_calibrate (σ.get r) nodes outlet), r)

theorem unique_value_key {α β : Type} [DecidableEq β] {d : List (α × β)}
    (hnd : (d.map Prod.snd).Nodup) {a b : α} {c : β}
    (h1 : (a, c) ∈ d) (h2 : (b, c) ∈ d) : a = b := by
  induction d with
  | nil => cases h1
  | cons kv d ih =>
    rw [List.map_cons] at hnd
    rcases List.mem_cons.mp h1 with rfl | h1t
    · rcases List.mem_cons.mp h2 with heq | h2t
      · cases heq; rfl
      · exfalso
        exact (List.nodup_cons.mp hnd).1
          (by rw [List.mem_map]; exact ⟨(b, c), h2t, rfl⟩)
    · rcases List.mem_cons.mp h2 with rfl | h2t
      · exfalso
        exact (List.nodup_cons.mp hnd).1
          (by rw [List.mem_map]; exact ⟨(a, c), h1t, rfl⟩)
      · exact ih (List.nodup_cons.mp hnd).2 h1t h2t

theorem dictGet?_of_mem_nodupKeys {α β : Type} [DecidableEq α]
    {d : List (α × β)} (hnd : (d.map Prod.fst).Nodup) {k : α} {v : β}
    (h : (k, v) ∈ d) : dictGet? d k = some v := by
  cases hget : dictGet? d k with
  | none =>
    exfalso
    unfold dictGet? at hget
    rw [Option.map_eq_none'] at hget
    have := List.find?_eq_none.mp hget (k, v) h
    simp at this
  | some w =>
    have hw := dictGet?_mem hget
    rw [unique_key_value hnd hw h]

theorem dictSet_keys_sub {α β : Type} [DecidableEq α] (d : List (α × β))
    (k : α) (v : β) :
    k ∈ (dictSet d k v).map Prod.fst ∧
    ∀ x ∈ d.map Prod.fst, x ∈ (dictSet d k v).map Prod.fst := by
  unfold dictSet
  split
  · rename_i hmem
    have hkeys : (d.map (fun kv => if kv.1 = k then (k, v) else kv)).map
        Prod.fst = d.map Prod.fst := by
      rw [List.map_map]
      refine List.map_congr_left ?_
      intro kv _
      by_cases hk : kv.1 = k
      · simp [hk]
      · simp [hk]
    rw [hkeys]
    exact ⟨hmem, fun x hx => hx⟩
  · rw [List.map_append]
    exact ⟨by simp, fun x hx => List.mem_append.mpr (Or.inl hx)⟩

theorem dictSet_keys_nodup {α β : Type} [DecidableEq α] {d : List (α × β)}
    (hnd : (d.map Prod.fst).Nodup) (k : α) (v : β) :
    ((dictSet d k v).map Prod.fst).Nodup := by
  unfold dictSet
  split
  · have hkeys : (d.map (fun kv => if kv.1 = k then (k, v) else kv)).map
        Prod.fst = d.map Prod.fst := by
      rw [List.map_map]
      refine List.map_congr_left ?_
      intro kv _
      by_cases hk : kv.1 = k
      · simp [hk]
      · simp [hk]
    rw [hkeys]
    exact hnd
  · rename_i hmem
    rw [List.map_append]
    simp [List.nodup_append, hnd, hmem]

theorem buildRev_keys_nodup (gauge : List (String × PyNode)) :
    ((buildRev gauge).map Prod.fst).Nodup := by
  suffices h : ∀ (l : List (String × PyNode)) (acc : List (PyNode × String)),
      (acc.map Prod.fst).Nodup →
      ((l.foldl (fun d kv => dictSet d kv.2 kv.1) acc).map Prod.fst).Nodup by
    exact h gauge [] (by simp)
  intro l
  induction l with
  | nil => intro acc h; exact h
  | cons kv l ih =>
    intro acc h
    rw [List.foldl_cons]
    exact ih _ (dictSet_keys_nodup h kv.2 kv.1)

theorem buildRev_keys_mem {gauge : List (String × PyNode)} {v : PyNode}
    (h : v ∈ gauge.map Prod.snd) : v ∈ (buildRev gauge).map Prod.fst := by
  suffices hS : ∀ (l : List (String × PyNode)) (acc : List (PyNode × String)),
      (v ∈ acc.map Prod.fst ∨ v ∈ l.map Prod.snd) →
      v ∈ (l.foldl (fun d kv => dictSet d kv.2 kv.1) acc).map Prod.fst by
    exact hS gauge [] (Or.inr h)
  intro l
  induction l with
  | nil =>
    intro acc hacc
    rcases hacc with h2 | h2
    · exact h2
    · simp at h2
  | cons kv l ih =>
    intro acc hacc
    rw [List.foldl_cons]
    refine ih _ ?_
    rcases hacc with h2 | h2
    · exact Or.inl ((dictSet_keys_sub acc kv.2 kv.1).2 v h2)
    · rw [List.map_cons] at h2
      rcases List.mem_cons.mp h2 with rfl | h3
      · exact Or.inl (dictSet_keys_sub acc kv.2 kv.1).1
      · exact Or.inr h3

theorem pruneStep_cases (rd : List (PyNode × String))
    (ga : List (String × PyNode)) (c : PyNode) :
    pruneStep (rd, ga) c = (rd, ga) ∨
    ∃ value, dictGet? rd c = some value ∧
      pruneStep (rd, ga) c = (dictPop rd c, dictPop ga value) := by
  unfold pruneStep
  cases hget : dictGet? rd c with
  | none => exact Or.inl rfl
  | some value => exact Or.inr ⟨value, rfl, rfl⟩

theorem prune_ga_subset :
    ∀ (keys : List PyNode) (rd : List (PyNode × String))
      (ga : List (String × PyNode)) {e : String × PyNode},
      e ∈ (keys.foldl pruneStep (rd, ga)).2 → e ∈ ga := by
  intro keys
  induction keys with
  | nil =>
    intro rd ga e he
    exact he
  | cons c ks ih =>
    intro rd ga e he
    rw [List.foldl_cons] at he
    rcases pruneStep_cases rd ga c with hstep | ⟨value, hget, hstep⟩
    · rw [hstep] at he
      exact ih rd ga he
    · rw [hstep] at he
      exact dictPop_subset (ih _ _ he)

theorem not_mem_dictPop_self {α β : Type} [DecidableEq α]
    (d : List (α × β)) (k : α) (v : β) : (k, v) ∉ dictPop d k := by
  intro h
  have := List.of_mem_filter h
  simp at this

theorem prune_drops {gauge : List (String × PyNode)} :
    ∀ (keys : List PyNode), keys.Nodup →
    ∀ {k : String} {v : PyNode}, (k, v) ∈ gauge → v ∈ keys →
    ∀ (rd : List (PyNode × String)) (ga : List (String × PyNode)),
      (rd.map Prod.fst).Nodup → (v, k) ∈ rd →
      (k, v) ∉ (keys.foldl pruneStep (rd, ga)).2 := by
  intro keys
  induction keys with
  | nil =>
    intro _ k v _ hv
    cases hv
  | cons c ks ih =>
    intro hnd k v hpair hv rd ga hrdnd hrdmem
    rw [List.foldl_cons]
    rcases List.mem_cons.mp hv with rfl | hvks
    · -- this step pops exactly our entry
      rcases pruneStep_cases rd ga v with hstep | ⟨value, hget, hstep⟩
      · exfalso
        -- lookup must succeed since (v, k) ∈ rd, so no-change is impossible
        have hlook := dictGet?_of_mem_nodupKeys hrdnd hrdmem
        unfold pruneStep at hstep
        rw [hlook] at hstep
        have hpop : (dictPop rd v, dictPop ga k) = (rd, ga) := hstep
        have hfst : dictPop rd v = rd := congrArg Prod.fst hpop
        have hmem2 : (v, k) ∈ dictPop rd v := by rw [hfst]; exact hrdmem
        exact not_mem_dictPop_self rd v k hmem2
      · have hvk : value = k := by
          have hw := dictGet?_mem hget
          exact unique_key_value hrdnd hw hrdmem
        subst hvk
        rw [hstep]
        intro hfin
        have := prune_ga_subset ks _ _ hfin
        exact not_mem_dictPop_self _ _ _ this
    · -- our entry's key is popped later (or never); recurse
      have hvc : v ≠ c := by
        intro hc
        subst hc
        exact (List.nodup_cons.mp hnd).1 hvks
      rcases pruneStep_cases rd ga c with hstep | ⟨value, hget, hstep⟩
      · rw [hstep]
        exact ih (List.nodup_cons.mp hnd).2 hpair hvks rd ga hrdnd hrdmem
      · rw [hstep]
        refine ih (List.nodup_cons.mp hnd).2 hpair hvks _ _ ?_ ?_
        · exact ((List.filter_sublist rd).map Prod.fst).nodup hrdnd
        · exact dictPop_mem hrdmem hvc

theorem keysToRemove_not_up {rd : List (PyNode × String)} {up : Graph} :
    ∀ x ∈ keysToRemove rd up, x ∉ up.nodes := by
  intro x hx
  unfold keysToRemove at hx
  rw [List.mem_map] at hx
  rcases hx with ⟨kv, hkv, rfl⟩
  have := List.of_mem_filter hkv
  simpa using this

theorem mem_keysToRemove {rd : List (PyNode × String)} {up : Graph}
    {v : PyNode} {k : String} (hmem : (v, k) ∈ rd) (hout : v ∉ up.nodes) :
    v ∈ keysToRemove rd up := by
  unfold keysToRemove
  rw [List.mem_map]
  exact ⟨(v, k), List.mem_filter.mpr ⟨hmem, by simpa using hout⟩, rfl⟩

theorem keysToRemove_nodup {rd : List (PyNode × String)} {up : Graph}
    (hnd : (rd.map Prod.fst).Nodup) : (keysToRemove rd up).Nodup := by
  unfold keysToRemove
  exact ((List.filter_sublist rd).map Prod.fst).nodup hnd

theorem mem_buildRev_of_mem {gauge : List (String × PyNode)}
    (hvals : (gauge.map Prod.snd).Nodup) {k : String} {v : PyNode}
    (h : (k, v) ∈ gauge) : (v, k) ∈ buildRev gauge := by
  have hv : v ∈ gauge.map Prod.snd := List.mem_map.mpr ⟨(k, v), h, rfl⟩
  have hk := buildRev_keys_mem hv
  rw [List.mem_map] at hk
  rcases hk with ⟨⟨a, b⟩, he, hfst⟩
  dsimp at hfst
  subst hfst
  have hg := buildRev_mem he
  have hbk : b = k := unique_value_key hvals hg h
  subst hbk
  exact he

/-- C8: frame effects of the traversal and annotation steps, over a store
of graph objects where a Python reference is a slot index.  For any live
reference `r`: (i) `get_up_streem_network` returns a fresh reference — the
result of `nx.DiGraph(net_up)` — distinct from `r`, leaves the object at
`r` (its node and edge sets included) unchanged, and the new object holds
the upstream subnetwork of the argument; (ii) `filter_to_calibrate`
returns the very reference it was given and writes the filtered graph
through it (in-place mutation); (iii) the pruning loop of `get_subgraph`
(lines 202-209) shrinks the caller's gauge dictionary to exactly the
entries whose node belongs to the upstream subnetwork, given a gauge
mapping with unique keys (a Python dict) and unique values (the spec's
bijection-like gauge↔node model, which the code's `reversed_dictionary`
construction itself assumes). -/
theorem traversal_frame_effects
    (σ : Store) (r : Nat) (hr : r < σ.graphs.length) (node : PyNode)
    (nodes : List PyNode) (o : PyNode)
    (net : Graph) (gauge : List (String × PyNode)) (outlet : PyNode)
    (hkeys : (gauge.map Prod.fst).Nodup)
    (hvals : (gauge.map Prod.snd).Nodup) :
    (get_up_streem_networkS σ r node).2 ≠ r ∧
    (get_up_streem_networkS σ r node).1.get r = σ.get r ∧
    (get_up_streem_networkS σ r node).1.get
        (get_up_streem_networkS σ r node).2
      = get_up_streem_network (σ.get r) node ∧
    (filter_to_calibrateS σ r nodes o).2 = r ∧
    (filter_to_calibrateS σ r nodes o).1.get r
      = filter_to_calibrate (σ.get r) nodes o ∧
    ∀ k v, ((k, v) ∈ (prunedMaps net gauge outlet).2 ↔
      (k, v) ∈ gauge ∧ v ∈ (get_up_streem_network net outlet).nodes) := by
  refine ⟨?_, ?_, ?_, rfl, ?_, ?_⟩
  · show σ.graphs.length ≠ r
    omega
  · show (σ.graphs ++ [get_up_streem_network (σ.get r) node]).getD r
        Graph.empty = σ.graphs.getD r Graph.empty
    exact List.getD_append _ _ _ _ hr
  · show (σ.graphs ++ [get_up_streem_network (σ.get r) node]).getD
        σ.graphs.length Graph.empty = get_up_streem_network (σ.get r) node
    rw [List.getD_eq_getElem?_getD, List.getElem?_concat_length]
    rfl
  · show (σ.graphs.set r (filter_to_calibrate (σ.get r) nodes o)).getD r
        Graph.empty = filter_to_calibrate (σ.get r) nodes o
    rw [List.getD_eq_getElem?_getD, List.getElem?_set_self]
    · rfl
    · exact hr
  · intro k v
    unfold prunedMaps
    constructor
    · intro hin
      have hg : (k, v) ∈ gauge := prune_ga_subset _ _ _ hin
      refine ⟨hg, ?_⟩
      by_contra hout
      have hrv : (v, k) ∈ buildRev gauge := mem_buildRev_of_mem hvals hg
      have hvkeys : v ∈ keysToRemove (buildRev gauge)
          (get_up_streem_network net outlet) := mem_keysToRemove hrv hout
      exact prune_drops _ (keysToRemove_nodup (buildRev_keys_nodup gauge))
        hg hvkeys _ _ (buildRev_keys_nodup gauge) hrv hin
    · rintro ⟨hg, hup⟩
      exact prune_keeps hkeys hg hup _ keysToRemove_not_up _ _
        (fun e he => buildRev_mem he) hg

theorem traversal_frame_effects_witness :
    (get_up_streem_networkS ⟨[exampleNet]⟩ 0 (PyNode.int 2)).2 ≠ 0 ∧
    (get_up_streem_networkS ⟨[exampleNet]⟩ 0 (PyNode.int 2)).1.get 0
      = Store.get ⟨[exampleNet]⟩ 0 ∧
    (get_up_streem_networkS ⟨[exampleNet]⟩ 0 (PyNode.int 2)).1.get
        (get_up_streem_networkS ⟨[exampleNet]⟩ 0 (PyNode.int 2)).2
      = get_up_streem_network (Store.get ⟨[exampleNet]⟩ 0) (PyNode.int 2) ∧
    (filter_to_calibrateS ⟨[exampleNet]⟩ 0 [] (PyNode.int 2)).2 = 0 ∧
    (filter_to_calibrateS ⟨[exampleNet]⟩ 0 [] (PyNode.int 2)).1.get 0
      = filter_to_calibrate (Store.get ⟨[exampleNet]⟩ 0) []
          (PyNode.int 2) ∧
    ∀ k v, ((k, v) ∈ (prunedMaps exampleNet exampleGauge (PyNode.int 2)).2
      ↔ (k, v) ∈ exampleGauge ∧
        v ∈ (get_up_streem_network exampleNet (PyNode.int 2)).nodes) :=
  traversal_frame_effects ⟨[exampleNet]⟩ 0 (by decide) (PyNode.int 2) []
    (PyNode.int 2) exampleNet exampleGauge (PyNode.int 2)
    (by decide) (by decide)
